import Mathlib

/-!
# Key file envelope of `crypto/keyfile.go`

A shallow embedding of `src/crypto/keyfile.go`: its five functions
`LoadKeyFromFileArg`, `LoadKeyFromFileInteractive`, `SaveKeyToFileArg`,
`SaveKeyToFileInteractive` and `ReadKeyFile`, over an explicit `World`
(file system, random source, terminal, standard output).

* Go byte slices and strings are `List Byte`; a nil slice and an empty
  slice are both `[]` (the code only takes `len` of the passphrase and hands
  it to scrypt).
* The Go standard-library calls (`hex.DecodeString`, `fmt.Sprintf("%x")`,
  `strings.TrimSpace`, `copy`) are modelled concretely.
* `scrypt.Key`, `secretbox.Seal` and `secretbox.Open` are external
  primitives; they are the fields of `Crypto` and every theorem is stated for
  an arbitrary `Crypto`, with the properties of the primitives it relies on as
  hypotheses.
-/

namespace Keyfile

/-! ## Bytes and errors -/

abbrev Byte := Fin 256

/-- Go error values that the key file code can return. -/
inductive Error where
  /-- An error from `os` for which `os.IsNotExist` is true. -/
  | notExist (path : String)
  /-- Any other error of the operating system, the terminal, the random
  source or scrypt. -/
  | sys (msg : String)
  /-- The `hex.InvalidByteError` of `encoding/hex`. -/
  | hexInvalidByte (b : Byte)
  /-- The `hex.ErrLength` of `encoding/hex`. -/
  | hexLength
  /-- An error made by `fmt.Errorf`, with its message. -/
  | errorf (msg : String)
  deriving DecidableEq, Repr

/-- The `os.IsNotExist` test. -/
def IsNotExist : Error → Bool
  | .notExist _ => true
  | _ => false

/-- A fresh zeroed array, `new([n]byte)`. -/
def zeros (n : Nat) : List Byte := List.replicate n 0

/-- The Go builtin `copy(dst, src)`: overwrites the first
`min (len dst) (len src)` elements of `dst`; the result is the new `dst`. -/
def goCopy (dst src : List Byte) : List Byte :=
  src.take dst.length ++ dst.drop src.length

/-! ## `encoding/hex` and `fmt.Sprintf("%x")` -/

/-- The digit table `"0123456789abcdef"` indexed by a nibble. -/
def hexDigit (n : Nat) : Byte :=
  if n < 10 then Fin.ofNat (48 + n) else Fin.ofNat (87 + n)

/-- The verb `%x` applied to a byte slice: two lowercase digits per byte. -/
def hexEncode : List Byte → List Byte
  | [] => []
  | b :: rest => hexDigit (b.val / 16) :: hexDigit (b.val % 16) :: hexEncode rest

/-- The call `fmt.Sprintf("%x\n", b)`. -/
def sprintfHexLine (b : List Byte) : List Byte := hexEncode b ++ [10]

/-- The helper `fromHexChar` of `encoding/hex`: the value of a hex digit of
either case. -/
def fromHexChar (c : Byte) : Option Nat :=
  if 48 ≤ c.val ∧ c.val ≤ 57 then some (c.val - 48)
  else if 97 ≤ c.val ∧ c.val ≤ 102 then some (c.val - 97 + 10)
  else if 65 ≤ c.val ∧ c.val ≤ 70 then some (c.val - 65 + 10)
  else none

/-- The function `hex.DecodeString`: the decoded bytes up to the first error,
and the error. A bad digit is reported before an odd length. -/
def hexDecodeString : List Byte → List Byte × Option Error
  | [] => ([], none)
  | [p] =>
    match fromHexChar p with
    | none => ([], some (.hexInvalidByte p))
    | some _ => ([], some .hexLength)
  | p :: q :: rest =>
    match fromHexChar p with
    | none => ([], some (.hexInvalidByte p))
    | some a =>
      match fromHexChar q with
      | none => ([], some (.hexInvalidByte q))
      | some b =>
        let r := hexDecodeString rest
        (Fin.ofNat (a * 16 + b) :: r.1, r.2)

/-- A lowercase hex digit, `0`-`9` or `a`-`f`. -/
def isLowerHex (c : Byte) : Bool :=
  (48 ≤ c.val && c.val ≤ 57) || (97 ≤ c.val && c.val ≤ 102)

/-! ## `unicode/utf8`, `unicode.IsSpace` and `strings.TrimSpace` -/

/-- The constant `utf8.RuneError`. -/
def RuneError : Nat := 0xFFFD

/-- The constant `utf8.RuneSelf`. -/
def RuneSelf : Nat := 0x80

/-- A continuation byte, `0x80`-`0xBF`. -/
def isCont (c : Byte) : Bool := 0x80 ≤ c.val && c.val ≤ 0xBF

/-- The function `utf8.DecodeRuneInString`: the first rune of `s` and its
width; an invalid encoding is `(RuneError, 1)`, the empty string
`(RuneError, 0)`. -/
def DecodeRuneInString (s : List Byte) : Nat × Nat :=
  match s with
  | [] => (RuneError, 0)
  | s0 :: t =>
    if s0.val < 0x80 then (s0.val, 1)
    else if s0.val < 0xC2 then (RuneError, 1)
    else if s0.val < 0xE0 then
      match t with
      | s1 :: _ =>
        if isCont s1 then ((s0.val % 32) * 64 + s1.val % 64, 2) else (RuneError, 1)
      | _ => (RuneError, 1)
    else if s0.val < 0xF0 then
      match t with
      | s1 :: s2 :: _ =>
        let lo := if s0.val = 0xE0 then 0xA0 else 0x80
        let hi := if s0.val = 0xED then 0x9F else 0xBF
        if s1.val < lo ∨ hi < s1.val then (RuneError, 1)
        else if !isCont s2 then (RuneError, 1)
        else ((s0.val % 16) * 4096 + (s1.val % 64) * 64 + s2.val % 64, 3)
      | _ => (RuneError, 1)
    else if s0.val < 0xF5 then
      match t with
      | s1 :: s2 :: s3 :: _ =>
        let lo := if s0.val = 0xF0 then 0x90 else 0x80
        let hi := if s0.val = 0xF4 then 0x8F else 0xBF
        if s1.val < lo ∨ hi < s1.val then (RuneError, 1)
        else if !isCont s2 then (RuneError, 1)
        else if !isCont s3 then (RuneError, 1)
        else ((s0.val % 8) * 262144 + (s1.val % 64) * 4096 + (s2.val % 64) * 64
          + s3.val % 64, 4)
      | _ => (RuneError, 1)
    else (RuneError, 1)

/-- The function `utf8.RuneStart`: the byte is not a continuation byte. -/
def RuneStart (b : Byte) : Bool := b.val / 64 ≠ 2

/-- The backward scan of `utf8.DecodeLastRuneInString`: from `start`, step
down while `start ≥ lim` and the byte at `start` does not start a rune. -/
def scanRuneStart (s : List Byte) (lim : Int) : Nat → Int → Int
  | 0, start => start
  | fuel + 1, start =>
    if start < lim then start
    else if RuneStart (s.getD start.toNat 0) then start
    else scanRuneStart s lim fuel (start - 1)

/-- The function `utf8.DecodeLastRuneInString`: the last rune of `s` and its
width. -/
def DecodeLastRuneInString (s : List Byte) : Nat × Nat :=
  match s.getLast? with
  | none => (RuneError, 0)
  | some c =>
    if c.val < RuneSelf then (c.val, 1)
    else
      let e : Int := s.length
      let lim : Int := if e - 4 < 0 then 0 else e - 4
      let start0 := scanRuneStart s lim 4 (e - 2)
      let start := if start0 < 0 then 0 else start0.toNat
      let d := DecodeRuneInString (s.drop start)
      if start + d.2 ≠ s.length then (RuneError, 1) else d

/-- The function `unicode.IsSpace`. -/
def IsSpace (r : Nat) : Bool :=
  if r ≤ 0xFF then
    r = 9 || r = 10 || r = 11 || r = 12 || r = 13 || r = 32 || r = 0x85 || r = 0xA0
  else
    r = 0x1680 || (0x2000 ≤ r && r ≤ 0x200A) || r = 0x2028 || r = 0x2029
      || r = 0x202F || r = 0x205F || r = 0x3000

/-- The loop of `strings.indexFunc`, on the part of the string from byte
offset `start` on; `skip` counts the bytes of the current rune still to be
passed over. -/
def indexFuncFrom (f : Nat → Bool) (truth : Bool) : List Byte → Nat → Nat → Option Nat
  | [], _, _ => none
  | _ :: rest, skip + 1, start => indexFuncFrom f truth rest skip (start + 1)
  | c :: rest, 0, start =>
    let d := if c.val ≥ RuneSelf then DecodeRuneInString (c :: rest) else (c.val, 1)
    if f d.1 == truth then some start
    else indexFuncFrom f truth rest (d.2 - 1) (start + 1)

/-- The function `strings.indexFunc`; `none` is the result `-1`. -/
def indexFunc (s : List Byte) (f : Nat → Bool) (truth : Bool) : Option Nat :=
  indexFuncFrom f truth s 0 0

/-- The loop of `strings.lastIndexFunc` on `s[0:i]`, given reversed; `skip`
counts the bytes of the current rune still to be passed over. -/
def lastIndexFuncFrom (f : Nat → Bool) (truth : Bool) : List Byte → Nat → Option Nat
  | [], _ => none
  | _ :: rest, skip + 1 => lastIndexFuncFrom f truth rest skip
  | c :: rest, 0 =>
    let d := DecodeLastRuneInString (c :: rest).reverse
    if f d.1 == truth then some (rest.length + 1 - d.2)
    else lastIndexFuncFrom f truth rest (d.2 - 1)

/-- The function `strings.lastIndexFunc`; `none` is the result `-1`. -/
def lastIndexFunc (s : List Byte) (f : Nat → Bool) (truth : Bool) : Option Nat :=
  lastIndexFuncFrom f truth s.reverse 0

/-- The function `strings.TrimLeftFunc`. -/
def TrimLeftFunc (s : List Byte) (f : Nat → Bool) : List Byte :=
  match indexFunc s f false with
  | none => []
  | some i => s.drop i

/-- The function `strings.TrimRightFunc`. -/
def TrimRightFunc (s : List Byte) (f : Nat → Bool) : List Byte :=
  match lastIndexFunc s f false with
  | none => s.take 0
  | some i =>
    if (s.getD i 0).val ≥ RuneSelf then s.take (i + (DecodeRuneInString (s.drop i)).2)
    else s.take (i + 1)

/-- The function `strings.TrimFunc`. -/
def TrimFunc (s : List Byte) (f : Nat → Bool) : List Byte :=
  TrimRightFunc (TrimLeftFunc s f) f

/-- The function `strings.TrimSpace`: `s` without its leading and trailing
white space, as defined by Unicode. -/
def TrimSpace (s : List Byte) : List Byte := TrimFunc s IsSpace

/-! ## The environment -/

/-- What the file system holds at a path. -/
inductive Entry where
  /-- No file: `os.Stat` and `ioutil.ReadFile` fail with a not-exist error. -/
  | absent
  /-- A regular file with its contents. -/
  | file (data : List Byte)
  /-- A path on which `os.Stat` and `ioutil.ReadFile` fail with `err`. -/
  | faulty (err : Error)
  deriving DecidableEq

/-- The environment of the program. -/
structure World where
  /-- The file system. -/
  fs : String → Entry
  /-- The paths at which `ioutil.WriteFile` fails, with the error. -/
  writeErr : String → Option Error
  /-- The bytes `crypto/rand` has still to deliver; `rand.Read` fails when
  too few are left. -/
  entropy : List Byte
  /-- The answers of the terminal to the successive calls of
  `gopass.GetPasswd`. -/
  tty : Nat → Except Error (List Byte)
  /-- The number of calls of `gopass.GetPasswd` made so far. -/
  ttyPos : Nat
  /-- Everything printed with `fmt.Printf` so far. -/
  stdout : String

/-- The external cryptographic primitives. -/
structure Crypto where
  /-- The call `scrypt.Key(password, salt, N, r, p, keyLen)`. -/
  scryptKey : List Byte → List Byte → Nat → Nat → Nat → Nat → Except Error (List Byte)
  /-- The call `secretbox.Seal(nil, message, nonce, key)`. -/
  secretboxSeal : List Byte → List Byte → List Byte → List Byte
  /-- The call `secretbox.Open(nil, box, nonce, key)`; `none` is the result
  `(nil, false)`. -/
  secretboxOpen : List Byte → List Byte → List Byte → Option (List Byte)
  /-- A key that `scrypt.Key` returns has the length asked for. -/
  scryptKey_length : ∀ pass salt N r p keyLen dk,
    scryptKey pass salt N r p keyLen = .ok dk → dk.length = keyLen
  /-- A sealed box is `secretbox.Overhead = 16` bytes longer than the message. -/
  secretboxSeal_length : ∀ message nonce key,
    (secretboxSeal message nonce key).length = message.length + 16

/-- The world in which the path `filename` holds a regular file with the
contents `data`. -/
def World.setFile (w : World) (filename : String) (data : List Byte) : World :=
  { w with fs := fun g => if g = filename then .file data else w.fs g }

/-- The call `fmt.Printf(s)`, with the verbs of `s` already filled in. -/
def Printf (w : World) (s : String) : World :=
  { w with stdout := w.stdout ++ s }

/-- The call `os.Stat(filename)`, of which the code uses the size and the
error. -/
def Stat (w : World) (filename : String) : Except Error Nat :=
  match w.fs filename with
  | .absent => .error (.notExist filename)
  | .file data => .ok data.length
  | .faulty err => .error err

/-- The call `ioutil.ReadFile(filename)`. -/
def ReadFile (w : World) (filename : String) : Except Error (List Byte) :=
  match w.fs filename with
  | .absent => .error (.notExist filename)
  | .file data => .ok data
  | .faulty err => .error err

/-- The call `ioutil.WriteFile(filename, data, 0600)`: on success the path
holds a regular file with exactly `data`. -/
def WriteFile (w : World) (filename : String) (data : List Byte) : Option Error × World :=
  match w.writeErr filename with
  | some err => (some err, w)
  | none => (none, w.setFile filename data)

/-- The call `rand.Read(b)` for a `b` of `n` bytes. -/
def randRead (w : World) (n : Nat) : Except Error (List Byte) × World :=
  if w.entropy.length < n then (.error (.sys "unexpected EOF"), w)
  else (.ok (w.entropy.take n), { w with entropy := w.entropy.drop n })

/-- The call `gopass.GetPasswd()`. -/
def GetPasswd (w : World) : Except Error (List Byte) × World :=
  (w.tty w.ttyPos, { w with ttyPos := w.ttyPos + 1 })

/-- The Go result pair `(*[96]byte, error)`; a nil pointer or a nil error is
`none`. -/
abbrev Ret := Option (List Byte) × Option Error

/-! ## `keyfile.go` -/

/-- The function `LoadKeyFromFileArg` (keyfile.go 48-93). -/
def LoadKeyFromFileArg (c : Crypto) (w : World) (filename : String) (pass : List Byte) :
    Ret × World :=
  let priv96 := zeros 96
  match ReadFile w filename with
  | .error err => ((some priv96, some err), w)
  | .ok keyhex =>
    let keyhex := TrimSpace keyhex
    match hexDecodeString keyhex with
    | (_, some err) => ((some priv96, some err), w)
    | (enckey, none) =>
      if enckey.length = 96 then
        let w := Printf w "WARNING!! Key file not encrypted!!\n"
        let w := Printf w "Anyone who can read the key file can take everything!\n"
        let w := Printf w "You should start over and use a good passphrase!\n"
        ((some (goCopy priv96 enckey), none), w)
      else if enckey.length ≠ 136 then
        ((some priv96, some (.errorf ("Key length error for " ++ filename ++ " "))), w)
      else
        let salt := goCopy (zeros 24) (enckey.take 24)
        match c.scryptKey pass salt 16384 8 1 32 with
        | .error err => ((some priv96, some err), w)
        | .ok dk =>
          let dk32 := goCopy (zeros 32) dk
          match c.secretboxOpen (enckey.drop 24) salt dk32 with
          | none =>
            ((some priv96, some (.errorf ("Decryption failed for " ++ filename ++ " "))), w)
          | some priv => ((some (goCopy priv96 priv), none), w)

/-- The function `LoadKeyFromFileInteractive` (keyfile.go 29-44). -/
def LoadKeyFromFileInteractive (c : Crypto) (w : World) (filename : String) : Ret × World :=
  match Stat w filename with
  | .error err => ((none, some err), w)
  | .ok size =>
    if size < 193 then LoadKeyFromFileArg c w filename []
    else
      let w := Printf w "passphrase: "
      match GetPasswd w with
      | (.error err, w) => ((none, some err), w)
      | (.ok pass, w) =>
        let w := Printf w "\n"
        LoadKeyFromFileArg c w filename pass

/-- The function `SaveKeyToFileArg` (keyfile.go 125-165); `priv` is the
96-byte array. -/
def SaveKeyToFileArg (c : Crypto) (w : World) (filename : String) (priv pass : List Byte) :
    Option Error × World :=
  if pass.length = 0 then
    let keyhex := sprintfHexLine priv
    match WriteFile w filename keyhex with
    | (some err, w) => (some err, w)
    | (none, w) =>
      let w := Printf w "WARNING!! Key file not encrypted!!\n"
      let w := Printf w "Anyone who can read the key file can take everything!\n"
      let w := Printf w "You should start over and use a good passphrase!\n"
      let w := Printf w ("Saved unencrypted key at " ++ filename ++ "\n")
      (none, w)
  else
    match randRead w 24 with
    | (.error err, w) => (some err, w)
    | (.ok salt, w) =>
      match c.scryptKey pass salt 16384 8 1 32 with
      | .error err => (some err, w)
      | .ok dk =>
        let dk32 := goCopy (zeros 32) dk
        let enckey := salt ++ c.secretboxSeal priv salt dk32
        let keyhex := sprintfHexLine enckey
        match WriteFile w filename keyhex with
        | (some err, w) => (some err, w)
        | (none, w) =>
          let w := Printf w ("Wrote encrypted key to " ++ filename ++ "\n")
          (none, w)

/-- The function `SaveKeyToFileInteractive` (keyfile.go 98-121). Each unit of
fuel pays for one turn of the loop `for match != true`; `none` means the fuel
ran out before the two passphrases matched. -/
def SaveKeyToFileInteractive (c : Crypto) :
    Nat → World → String → List Byte → Option (Option Error × World)
  | 0, _, _, _ => none
  | fuel + 1, w, filename, priv =>
    let w := Printf w "passphrase: "
    match GetPasswd w with
    | (.error err, w) => some (some err, w)
    | (.ok pass1, w) =>
      let w := Printf w "repeat passphrase: "
      match GetPasswd w with
      | (.error err, w) => some (some err, w)
      | (.ok pass2, w) =>
        if pass1 = pass2 then
          let w := Printf w "\n"
          some (SaveKeyToFileArg c w filename priv pass1)
        else
          let w := Printf w "user input error.  Try again gl hf dd.\n"
          SaveKeyToFileInteractive c fuel w filename priv

/-- The function `ReadKeyFile` (keyfile.go 170-194), with the fuel of
`SaveKeyToFileInteractive`. -/
def ReadKeyFile (c : Crypto) (fuel : Nat) (w : World) (filename : String) :
    Option (Ret × World) :=
  match Stat w filename with
  | .error err =>
    if IsNotExist err then
      let w := Printf w ("No file " ++ filename ++ ", generating.\n")
      match randRead w 96 with
      | (.error err, w) => some ((none, some err), w)
      | (.ok key, w) =>
        match SaveKeyToFileInteractive c fuel w filename key with
        | none => none
        | some (some err, w) => some ((none, some err), w)
        | some (none, w) => some (LoadKeyFromFileInteractive c w filename)
    else
      let w := Printf w "unknown\n"
      some ((none, some err), w)
  | .ok _ => some (LoadKeyFromFileInteractive c w filename)

/-! ## Tampering and sample data -/

/-- The byte `b` with bit `k` (of value `2 ^ k`) flipped. -/
def flipBitByte (b : Byte) (k : Nat) : Byte := Fin.ofNat (Nat.xor b.val (2 ^ k))

/-- The byte string `data` with bit `i % 8` of byte `i / 8` flipped. -/
def flipBit (data : List Byte) (i : Nat) : List Byte :=
  data.set (i / 8) (flipBitByte (data.getD (i / 8) 0) (i % 8))

/-- The sum of the bytes, modulo 256. -/
def sumBytes (l : List Byte) : Byte := l.foldr (fun a b => a + b) 0

/-- A stand-in for `scrypt.Key` on sample inputs: rejects `N ≤ 1`, else
`keyLen` bytes made from the byte sums of password and salt. -/
def demoScryptKey (pass salt : List Byte) (N _r _p keyLen : Nat) : Except Error (List Byte) :=
  if N ≤ 1 then .error (.sys "scrypt: N must be > 1 and a power of 2")
  else .ok ((List.range keyLen).map fun i => sumBytes pass + sumBytes salt + Fin.ofNat i)

/-- The 16-byte tag of the stand-in box. -/
def demoTag (message nonce key : List Byte) : List Byte :=
  List.replicate 16 (sumBytes message + sumBytes nonce + sumBytes key)

/-- A stand-in for `secretbox.Seal`: the tag, then the message with the key
sum added to every byte. -/
def demoSeal (message nonce key : List Byte) : List Byte :=
  demoTag message nonce key ++ message.map fun b => b + sumBytes key

/-- A stand-in for `secretbox.Open`: undoes `demoSeal` and checks the tag. -/
def demoOpen (box nonce key : List Byte) : Option (List Byte) :=
  let message := (box.drop 16).map fun b => b - sumBytes key
  if box.take 16 = demoTag message nonce key then some message else none

/-- The stand-in primitives, used to run the model on sample inputs. -/
def demoCrypto : Crypto where
  scryptKey := demoScryptKey
  secretboxSeal := demoSeal
  secretboxOpen := demoOpen
  scryptKey_length := by
    intro pass salt N r p keyLen dk h
    unfold demoScryptKey at h
    split at h
    · cases h
    · cases h; simp
  secretboxSeal_length := by
    intro message nonce key
    simp [demoSeal, demoTag]

/-- A sample 96-byte secret. -/
def demoSecret : List Byte := (List.range 96).map fun i => Fin.ofNat (3 * i + 1)

/-- A sample passphrase, `pw`. -/
def demoPass : List Byte := [112, 119]

/-- A sample world: an empty file system on which writes succeed, a supply of
200 random bytes starting `ab`, and a terminal that answers `pw`. -/
def demoWorld : World where
  fs := fun _ => .absent
  writeErr := fun _ => none
  entropy := (List.range 200).map fun i => Fin.ofNat (171 + 7 * i)
  tty := fun _ => .ok demoPass
  ttyPos := 0
  stdout := ""

/-- The sample world after the sample secret was saved with the sample
passphrase. -/
def demoSavedWorld : World :=
  (SaveKeyToFileArg demoCrypto demoWorld "key.hex" demoSecret demoPass).2

/-- The contents of the key file in `demoSavedWorld`. -/
def demoFile : List Byte :=
  match demoSavedWorld.fs "key.hex" with
  | .file data => data
  | _ => []

/-- The envelope in `demoFile`: what the file, trimmed, hex-decodes to. -/
def demoEnvelope : List Byte := (hexDecodeString (TrimSpace demoFile)).1

/-- The sample world with a closed terminal, after the sample secret was saved
without a passphrase. -/
def demoPlainWorld : World :=
  (SaveKeyToFileArg demoCrypto { demoWorld with tty := fun _ => .error (.sys "EOF") }
    "key.hex" demoSecret []).2

/-- The key the stand-in scrypt derives from the sample passphrase and the salt
of the sample envelope. -/
def demoKey : List Byte :=
  (List.range 32).map fun i =>
    sumBytes demoPass + sumBytes (demoWorld.entropy.take 24) + Fin.ofNat i

/-- The sample world with a terminal that answers the empty passphrase twice
and is closed after that. -/
def demoBootWorld : World :=
  { demoWorld with tty := fun i => if i < 2 then .ok [] else .error (.sys "EOF") }

/-- The sample world with a key file that decodes to 50 bytes. -/
def demoShortWorld : World := demoWorld.setFile "key.hex" (sprintfHexLine (zeros 50))

/-- The key the stand-in scrypt derives from the wrong passphrase `[1]` and
the salt of the sample envelope. -/
def demoKeyWrong : List Byte :=
  match demoScryptKey [1] (demoEnvelope.take 24) 16384 8 1 32 with
  | .ok dk => dk
  | .error _ => []

/-! ## Lemmas on the library functions -/

theorem fromHexChar_hexDigit (n : Nat) (h : n < 16) : fromHexChar (hexDigit n) = some n := by
  interval_cases n <;> rfl

theorem isLowerHex_hexDigit (n : Nat) (h : n < 16) : isLowerHex (hexDigit n) = true := by
  interval_cases n <;> rfl

theorem hexDigit_not_space (n : Nat) (h : n < 16) :
    (hexDigit n).val < RuneSelf ∧ IsSpace (hexDigit n).val = false := by
  interval_cases n <;> exact ⟨by decide, by rfl⟩

theorem ofNat_nibbles (b : Byte) : (Fin.ofNat (b.val / 16 * 16 + b.val % 16) : Byte) = b := by
  apply Fin.ext
  show (b.val / 16 * 16 + b.val % 16) % 256 = b.val
  have := b.isLt
  omega

theorem hexDecodeString_hexEncode (bs : List Byte) :
    hexDecodeString (hexEncode bs) = (bs, none) := by
  induction bs with
  | nil => rfl
  | cons b rest ih =>
    have h1 : b.val / 16 < 16 := by have := b.isLt; omega
    have h2 : b.val % 16 < 16 := by omega
    simp [hexEncode, hexDecodeString, fromHexChar_hexDigit _ h1, fromHexChar_hexDigit _ h2, ih,
      ofNat_nibbles]

theorem length_hexEncode (bs : List Byte) : (hexEncode bs).length = 2 * bs.length := by
  induction bs with
  | nil => rfl
  | cons b rest ih => simp [hexEncode, ih]; omega

theorem isLowerHex_of_mem_hexEncode (bs : List Byte) :
    ∀ ch ∈ hexEncode bs, isLowerHex ch = true := by
  induction bs with
  | nil => simp [hexEncode]
  | cons b rest ih =>
    have h1 : b.val / 16 < 16 := by have := b.isLt; omega
    have h2 : b.val % 16 < 16 := by omega
    intro ch hch
    simp only [hexEncode, List.mem_cons] at hch
    rcases hch with rfl | rfl | hch
    · exact isLowerHex_hexDigit _ h1
    · exact isLowerHex_hexDigit _ h2
    · exact ih ch hch

theorem not_space_of_mem_hexEncode (bs : List Byte) :
    ∀ c ∈ hexEncode bs, c.val < RuneSelf ∧ IsSpace c.val = false := by
  induction bs with
  | nil => simp [hexEncode]
  | cons b rest ih =>
    have h1 : b.val / 16 < 16 := by have := b.isLt; omega
    have h2 : b.val % 16 < 16 := by omega
    intro ch hch
    simp only [hexEncode, List.mem_cons] at hch
    rcases hch with rfl | rfl | hch
    · exact hexDigit_not_space _ h1
    · exact hexDigit_not_space _ h2
    · exact ih ch hch

theorem length_hexDecodeString_le (s : List Byte) :
    2 * (hexDecodeString s).1.length ≤ s.length := by
  induction s using hexDecodeString.induct with
  | case1 => simp [hexDecodeString]
  | case2 p h => simp [hexDecodeString, h]
  | case3 p x h => simp [hexDecodeString, h]
  | case4 p q rest h => simp [hexDecodeString, h]
  | case5 p q rest a ha hb => simp [hexDecodeString, ha, hb]
  | case6 p q rest a ha b hb ih =>
    simp [hexDecodeString, ha, hb]
    omega

theorem length_TrimLeftFunc_le (s : List Byte) (f : Nat → Bool) :
    (TrimLeftFunc s f).length ≤ s.length := by
  unfold TrimLeftFunc
  split <;> simp

theorem length_TrimRightFunc_le (s : List Byte) (f : Nat → Bool) :
    (TrimRightFunc s f).length ≤ s.length := by
  unfold TrimRightFunc
  split
  · simp
  · split <;> simp [List.length_take]

theorem length_TrimSpace_le (s : List Byte) : (TrimSpace s).length ≤ s.length := by
  unfold TrimSpace TrimFunc
  exact le_trans (length_TrimRightFunc_le _ _) (length_TrimLeftFunc_le _ _)

theorem DecodeLastRuneInString_ascii (s : List Byte) (c : Byte) (hc : c.val < RuneSelf) :
    DecodeLastRuneInString (s ++ [c]) = (c.val, 1) := by
  simp [DecodeLastRuneInString, hc]

theorem TrimLeftFunc_of_head (c : Byte) (t : List Byte) (hc : c.val < RuneSelf)
    (hs : IsSpace c.val = false) : TrimLeftFunc (c :: t) IsSpace = c :: t := by
  have h : ¬ (c.val ≥ RuneSelf) := by omega
  simp [TrimLeftFunc, indexFunc, indexFuncFrom, h, hs]

theorem TrimRightFunc_line (r : List Byte) (c : Byte) (hc : c.val < RuneSelf)
    (hs : IsSpace c.val = false) : TrimRightFunc (r ++ [c] ++ [10]) IsSpace = r ++ [c] := by
  have h10 : ((10 : Byte).val < RuneSelf) := by decide
  have h : ¬ (c.val ≥ RuneSelf) := by omega
  have e1 : lastIndexFunc (r ++ [c] ++ [10]) IsSpace false = some r.length := by
    have e0 : (r ++ [c] ++ [10]).reverse = 10 :: c :: r.reverse := by simp
    rw [lastIndexFunc, e0, lastIndexFuncFrom, List.reverse_cons,
      DecodeLastRuneInString_ascii _ _ h10]
    have e3 : IsSpace (10 : Byte).val = true := by rfl
    simp only [e3, Bool.true_eq_false, beq_self_eq_true, Nat.sub_self]
    rw [if_neg (by decide), lastIndexFuncFrom, List.reverse_cons,
      DecodeLastRuneInString_ascii _ _ hc]
    simp [hs]
  simp only [TrimRightFunc, e1]
  have e2 : (r ++ [c] ++ [10]).getD r.length 0 = c := by
    rw [List.append_assoc, List.getD_eq_getElem?_getD, List.getElem?_append_right (le_refl _)]
    simp
  rw [e2, if_neg h]
  rw [List.append_assoc, List.take_append_eq_append_take]
  simp

/-- Trimming a line of non-space ASCII bytes ended by a newline gives the
line without the newline. -/
theorem TrimSpace_line (h : List Byte)
    (hh : ∀ c ∈ h, c.val < RuneSelf ∧ IsSpace c.val = false) :
    TrimSpace (h ++ [10]) = h := by
  rcases List.eq_nil_or_concat h with rfl | ⟨r, c, rfl⟩
  · rfl
  · rw [List.concat_eq_append] at hh ⊢
    have hc := hh c (by simp)
    unfold TrimSpace TrimFunc
    have e : TrimLeftFunc (r ++ [c] ++ [10]) IsSpace = r ++ [c] ++ [10] := by
      cases r with
      | nil => exact TrimLeftFunc_of_head c _ hc.1 hc.2
      | cons a t =>
        have ha := hh a (by simp)
        exact TrimLeftFunc_of_head a _ ha.1 ha.2
    rw [e]
    exact TrimRightFunc_line r c hc.1 hc.2

theorem TrimSpace_sprintfHexLine (bs : List Byte) :
    TrimSpace (sprintfHexLine bs) = hexEncode bs :=
  TrimSpace_line _ (not_space_of_mem_hexEncode bs)

/-- What was written with `%x\n` is read back by trimming and decoding. -/
theorem hexDecodeString_TrimSpace_sprintfHexLine (bs : List Byte) :
    hexDecodeString (TrimSpace (sprintfHexLine bs)) = (bs, none) := by
  rw [TrimSpace_sprintfHexLine, hexDecodeString_hexEncode]

theorem goCopy_zeros (n : Nat) (l : List Byte) (h : l.length = n) : goCopy (zeros n) l = l := by
  subst h
  unfold goCopy zeros
  rw [List.length_replicate, List.take_length, List.drop_eq_nil_of_le (by simp), List.append_nil]

theorem length_flipBit (data : List Byte) (i : Nat) : (flipBit data i).length = data.length := by
  simp [flipBit]

theorem take_append_of_length (l1 l2 : List Byte) (n : Nat) (h : l1.length = n) :
    (l1 ++ l2).take n = l1 := by
  subst h; exact List.take_left _ _

theorem drop_append_of_length (l1 l2 : List Byte) (n : Nat) (h : l1.length = n) :
    (l1 ++ l2).drop n = l2 := by
  subst h; exact List.drop_left _ _

/-! ## Trimming and decoding a key file with one byte altered -/

/-- A continuation byte is above ASCII. -/
theorem isCont_ge (c : Byte) (h : isCont c = true) : 0x80 ≤ c.val := by
  simp only [isCont, Bool.and_eq_true, decide_eq_true_eq] at h
  exact h.1

theorem DecodeRuneInString_width (s0 : Byte) (t : List Byte) :
    (DecodeRuneInString (s0 :: t)).2 - 1 ≤ t.length ∧
      (1 < (DecodeRuneInString (s0 :: t)).2 → 0x80 ≤ s0.val) ∧
      ∀ y ∈ t.take ((DecodeRuneInString (s0 :: t)).2 - 1), 0x80 ≤ y.val := by
  by_cases h1 : s0.val < 0x80
  · simp only [DecodeRuneInString, h1, if_true]
    simp
  have h0 : 0x80 ≤ s0.val := by omega
  by_cases h2 : s0.val < 0xC2
  · simp only [DecodeRuneInString, h1, h2, if_true, if_false]
    simp
  by_cases h3 : s0.val < 0xE0
  · rcases t with _ | ⟨s1, rest⟩
    · simp only [DecodeRuneInString, h1, h2, h3, if_true, if_false]
      simp
    · by_cases c1 : isCont s1 = true
      · simp only [DecodeRuneInString, h1, h2, h3, c1, if_true, if_false]
        refine ⟨by simp, fun _ => h0, ?_⟩
        intro y hy
        simp only [Nat.add_one_sub_one, List.take_succ_cons, List.take_zero,
          List.mem_singleton] at hy
        subst hy
        exact isCont_ge _ c1
      · simp only [DecodeRuneInString, h1, h2, h3, c1, if_true, if_false]
        simp
  by_cases h4 : s0.val < 0xF0
  · rcases t with _ | ⟨s1, _ | ⟨s2, rest⟩⟩
    · simp only [DecodeRuneInString, h1, h2, h3, h4, if_true, if_false]
      simp
    · simp only [DecodeRuneInString, h1, h2, h3, h4, if_true, if_false]
      simp
    · by_cases c1 : s1.val < (if s0.val = 0xE0 then 0xA0 else 0x80) ∨
          (if s0.val = 0xED then 0x9F else 0xBF) < s1.val
      · simp only [DecodeRuneInString, h1, h2, h3, h4, c1, if_true, if_false]
        simp
      · by_cases c2 : isCont s2 = true
        · simp only [DecodeRuneInString, h1, h2, h3, h4, c1, c2, if_true, if_false,
            Bool.not_true, Bool.false_eq_true]
          refine ⟨by simp, fun _ => h0, ?_⟩
          intro y hy
          simp only [Nat.add_one_sub_one, List.take_succ_cons, List.take_zero,
            List.mem_cons, List.mem_nil_iff, or_false] at hy
          rcases hy with rfl | rfl
          · have : (if s0.val = 0xE0 then 0xA0 else 0x80) ≤ y.val := by omega
            split_ifs at this <;> omega
          · exact isCont_ge _ c2
        · simp only [DecodeRuneInString, h1, h2, h3, h4, c1, c2, if_true, if_false,
            Bool.not_false]
          simp
  by_cases h5 : s0.val < 0xF5
  · rcases t with _ | ⟨s1, _ | ⟨s2, _ | ⟨s3, rest⟩⟩⟩
    · simp only [DecodeRuneInString, h1, h2, h3, h4, h5, if_true, if_false]
      simp
    · simp only [DecodeRuneInString, h1, h2, h3, h4, h5, if_true, if_false]
      simp
    · simp only [DecodeRuneInString, h1, h2, h3, h4, h5, if_true, if_false]
      simp
    · by_cases c1 : s1.val < (if s0.val = 0xF0 then 0x90 else 0x80) ∨
          (if s0.val = 0xF4 then 0x8F else 0xBF) < s1.val
      · simp only [DecodeRuneInString, h1, h2, h3, h4, h5, c1, if_true, if_false]
        simp
      · by_cases c2 : isCont s2 = true
        · by_cases c3 : isCont s3 = true
          · simp only [DecodeRuneInString, h1, h2, h3, h4, h5, c1, c2, c3, if_true, if_false,
              Bool.not_true, Bool.false_eq_true]
            refine ⟨by simp, fun _ => h0, ?_⟩
            intro y hy
            simp only [Nat.add_one_sub_one, List.take_succ_cons, List.take_zero,
              List.mem_cons, List.mem_nil_iff, or_false] at hy
            rcases hy with rfl | rfl | rfl
            · have : (if s0.val = 0xF0 then 0x90 else 0x80) ≤ y.val := by omega
              split_ifs at this <;> omega
            · exact isCont_ge _ c2
            · exact isCont_ge _ c3
          · simp only [DecodeRuneInString, h1, h2, h3, h4, h5, c1, c2, c3, if_true, if_false,
              Bool.not_true, Bool.not_false, Bool.false_eq_true]
            simp
        · simp only [DecodeRuneInString, h1, h2, h3, h4, h5, c1, c2, if_true, if_false,
            Bool.not_false]
          simp
  · simp only [DecodeRuneInString, h1, h2, h3, h4, h5, if_true, if_false]
    simp

/-- The last rune of a string: when it is wider than one byte, all its bytes
are above ASCII. The string is given reversed, last byte first. -/
theorem DecodeLastRuneInString_width (x : Byte) (rest : List Byte) :
    (DecodeLastRuneInString (x :: rest).reverse).2 - 1 ≤ rest.length ∧
      ∀ y ∈ rest.take ((DecodeLastRuneInString (x :: rest).reverse).2 - 1), 0x80 ≤ y.val := by
  have hlast : ((x :: rest).reverse).getLast? = some x := by simp
  have hlen : ((x :: rest).reverse).length = rest.length + 1 := by simp
  unfold DecodeLastRuneInString
  rw [hlast]
  simp only
  by_cases hx : x.val < RuneSelf
  · simp [hx]
  · rw [if_neg hx]
    generalize (if scanRuneStart (x :: rest).reverse
        (if (((x :: rest).reverse.length : Nat) : Int) - 4 < 0 then 0
          else (((x :: rest).reverse.length : Nat) : Int) - 4) 4
        ((((x :: rest).reverse.length : Nat) : Int) - 2) < 0 then 0
      else (scanRuneStart (x :: rest).reverse
        (if (((x :: rest).reverse.length : Nat) : Int) - 4 < 0 then 0
          else (((x :: rest).reverse.length : Nat) : Int) - 4) 4
        ((((x :: rest).reverse.length : Nat) : Int) - 2)).toNat) = start
    by_cases hne : start + (DecodeRuneInString ((x :: rest).reverse.drop start)).2
        ≠ (x :: rest).reverse.length
    · rw [if_pos hne]; simp
    · rw [if_neg hne]
      have heq : start + (DecodeRuneInString ((x :: rest).reverse.drop start)).2
          = rest.length + 1 := by
        rw [← hlen]; exact not_not.mp hne
      by_cases hw : (DecodeRuneInString ((x :: rest).reverse.drop start)).2 ≤ 1
      · have h0 : (DecodeRuneInString ((x :: rest).reverse.drop start)).2 - 1 = 0 := by omega
        rw [h0]; simp
      · refine ⟨by omega, ?_⟩
        cases hd : (x :: rest).reverse.drop start with
        | nil =>
          rw [hd] at hw
          simp [DecodeRuneInString] at hw
        | cons s0 t =>
          rw [hd] at heq hw
          obtain ⟨h1, h2, h3⟩ := DecodeRuneInString_width s0 t
          have hdl : ((x :: rest).reverse.drop start).length = t.length + 1 := by rw [hd]; simp
          rw [List.length_drop, hlen] at hdl
          have htake : t.take ((DecodeRuneInString (s0 :: t)).2 - 1) = t :=
            List.take_of_length_le (by omega)
          rw [htake] at h3
          have hall : ∀ y ∈ (x :: rest).reverse.drop start, 0x80 ≤ y.val := by
            intro y hy
            rw [hd] at hy
            rcases List.mem_cons.mp hy with rfl | hy
            · exact h2 (by omega)
            · exact h3 y hy
          intro y hy
          apply hall
          have hstart : start = (x :: rest).reverse.length
              - (DecodeRuneInString (s0 :: t)).2 := by rw [hlen]; omega
          have hmem : y ∈ (x :: rest).take (DecodeRuneInString (s0 :: t)).2 := by
            obtain ⟨n, hn⟩ : ∃ n, (DecodeRuneInString (s0 :: t)).2 = n + 1 :=
              ⟨(DecodeRuneInString (s0 :: t)).2 - 1, by omega⟩
            rw [hn] at hy ⊢
            simp only [Nat.add_one_sub_one] at hy
            rw [List.take_succ_cons]
            exact List.mem_cons_of_mem _ hy
          have hrev : (x :: rest).take (DecodeRuneInString (s0 :: t)).2
              = ((x :: rest).reverse.drop start).reverse := by
            rw [hstart, ← List.take_reverse, List.reverse_reverse]
          rw [hrev] at hmem
          exact List.mem_reverse.mp hmem

/-- The forward scan of `strings.indexFunc` for a non-space rune stops at or
before an ASCII byte that is not white space. -/
theorem indexFuncFrom_anchor (p : List Byte) (c : Byte) (q : List Byte)
    (hc : c.val < RuneSelf) (hs : IsSpace c.val = false) :
    ∀ skip start, (∀ y ∈ (p ++ c :: q).take skip, 0x80 ≤ y.val) →
      ∃ k, indexFuncFrom IsSpace false (p ++ c :: q) skip start = some k ∧
        k ≤ start + p.length := by
  have hc2 : ¬ (0x80 ≤ c.val) := by unfold RuneSelf at hc; omega
  induction p with
  | nil =>
    intro skip start h
    cases skip with
    | succ s => exact absurd (h c (by simp)) hc2
    | zero =>
      refine ⟨start, ?_, by simp⟩
      have hge : ¬ (c.val ≥ RuneSelf) := by omega
      simp [indexFuncFrom, hge, hs]
  | cons x p2 ih =>
    intro skip start h
    cases skip with
    | succ s =>
      obtain ⟨k, hk, hle⟩ := ih s (start + 1) (fun y hy => h y (by simp [hy]))
      exact ⟨k, by rw [List.cons_append, indexFuncFrom]; exact hk,
        by simp only [List.length_cons]; omega⟩
    | zero =>
      have hskip : ∀ y ∈ (p2 ++ c :: q).take
          ((if x.val ≥ RuneSelf then DecodeRuneInString (x :: (p2 ++ c :: q))
            else (x.val, 1)).2 - 1), 0x80 ≤ y.val := by
        split
        · exact (DecodeRuneInString_width x _).2.2
        · simp
      rw [List.cons_append, indexFuncFrom]
      generalize (if x.val ≥ RuneSelf then DecodeRuneInString (x :: (p2 ++ c :: q))
        else (x.val, 1)) = d at hskip ⊢
      by_cases hf : (IsSpace d.1 == false) = true
      · exact ⟨start, by simp only [hf, if_true], by omega⟩
      · obtain ⟨k, hk, hle⟩ := ih _ (start + 1) hskip
        exact ⟨k, by simp only [hf, if_false]; exact hk,
          by simp only [List.length_cons]; omega⟩

/-- The backward scan of `strings.lastIndexFunc` for a non-space rune stops at
or after an ASCII byte that is not white space. -/
theorem lastIndexFuncFrom_anchor (qr : List Byte) (c : Byte) (pr : List Byte)
    (hc : c.val < RuneSelf) (hs : IsSpace c.val = false) :
    ∀ skip, (∀ y ∈ (qr ++ c :: pr).take skip, 0x80 ≤ y.val) →
      ∃ k, lastIndexFuncFrom IsSpace false (qr ++ c :: pr) skip = some k ∧
        pr.length ≤ k := by
  have hc2 : ¬ (0x80 ≤ c.val) := by unfold RuneSelf at hc; omega
  induction qr with
  | nil =>
    intro skip h
    cases skip with
    | succ s => exact absurd (h c (by simp)) hc2
    | zero =>
      refine ⟨pr.length, ?_, le_refl _⟩
      simp only [List.nil_append, lastIndexFuncFrom, List.reverse_cons,
        DecodeLastRuneInString_ascii _ _ hc, hs]
      simp
  | cons x q2 ih =>
    intro skip h
    cases skip with
    | succ s =>
      obtain ⟨k, hk, hle⟩ := ih s (fun y hy => h y (by simp [hy]))
      exact ⟨k, by rw [List.cons_append, lastIndexFuncFrom]; exact hk, hle⟩
    | zero =>
      obtain ⟨h1, h2⟩ := DecodeLastRuneInString_width x (q2 ++ c :: pr)
      rw [List.cons_append, lastIndexFuncFrom]
      by_cases hf : (IsSpace (DecodeLastRuneInString (x :: (q2 ++ c :: pr)).reverse).1
          == false) = true
      · refine ⟨(q2 ++ c :: pr).length + 1
          - (DecodeLastRuneInString (x :: (q2 ++ c :: pr)).reverse).2,
          by simp only [hf, if_true], ?_⟩
        have hle : (DecodeLastRuneInString (x :: (q2 ++ c :: pr)).reverse).2 - 1 ≤ q2.length := by
          by_contra hgt
          have hmem : c ∈ (q2 ++ c :: pr).take
              ((DecodeLastRuneInString (x :: (q2 ++ c :: pr)).reverse).2 - 1) := by
            rw [List.take_append_eq_append_take]
            apply List.mem_append_right
            obtain ⟨n, hn⟩ : ∃ n, (DecodeLastRuneInString (x :: (q2 ++ c :: pr)).reverse).2 - 1
                - q2.length = n + 1 := ⟨_, (Nat.succ_pred_eq_of_pos (by omega)).symm⟩
            rw [hn]; simp
          exact hc2 (h2 c hmem)
        simp only [List.length_append, List.length_cons]
        omega
      · obtain ⟨k, hk, hle⟩ := ih _ h2
        exact ⟨k, by simp only [hf, if_false]; exact hk, hle⟩

/-- A list split at one of its elements. -/
theorem split_at_index (s : List Byte) (a : Nat) (c : Byte) (ha : s[a]? = some c) :
    s = s.take a ++ c :: s.drop (a + 1) := by
  obtain ⟨hlt, hget⟩ := List.getElem?_eq_some.mp ha
  rw [← hget, ← List.drop_eq_getElem_cons hlt, List.take_append_drop]

/-- The function `strings.TrimLeftFunc` drops no more than what precedes an
ASCII byte that is not white space. -/
theorem TrimLeftFunc_anchor (s : List Byte) (a : Nat) (c : Byte) (ha : s[a]? = some c)
    (hc : c.val < RuneSelf) (hs : IsSpace c.val = false) :
    ∃ k, k ≤ a ∧ TrimLeftFunc s IsSpace = s.drop k := by
  have hlt : a < s.length := (List.getElem?_eq_some.mp ha).1
  obtain ⟨k, hk, hle⟩ := indexFuncFrom_anchor (s.take a) c (s.drop (a + 1)) hc hs 0 0 (by simp)
  rw [← split_at_index s a c ha] at hk
  refine ⟨k, ?_, ?_⟩
  · rw [List.length_take] at hle; omega
  · simp only [TrimLeftFunc, indexFunc, hk]

/-- The function `strings.TrimRightFunc` keeps everything up to and including
an ASCII byte that is not white space. -/
theorem TrimRightFunc_anchor (s : List Byte) (b : Nat) (c : Byte) (hb : s[b]? = some c)
    (hc : c.val < RuneSelf) (hs : IsSpace c.val = false) :
    ∃ k, b + 1 ≤ k ∧ k ≤ s.length ∧ TrimRightFunc s IsSpace = s.take k := by
  have hlt : b < s.length := (List.getElem?_eq_some.mp hb).1
  obtain ⟨k, hk, hle⟩ := lastIndexFuncFrom_anchor (s.drop (b + 1)).reverse c (s.take b).reverse
    hc hs 0 (by simp)
  have hrev : (s.drop (b + 1)).reverse ++ c :: (s.take b).reverse = s.reverse := by
    conv_rhs => rw [split_at_index s b c hb]
    simp
  rw [hrev] at hk
  rw [List.length_reverse, List.length_take, Nat.min_eq_left (le_of_lt hlt)] at hle
  have key : ∀ n, b + 1 ≤ n → ∃ k, b + 1 ≤ k ∧ k ≤ s.length ∧ s.take n = s.take k := by
    intro n hn
    refine ⟨min n s.length, by omega, Nat.min_le_right _ _, ?_⟩
    rw [List.take_eq_take]
    simp
  simp only [TrimRightFunc, lastIndexFunc, hk]
  split
  · rename_i hge
    apply key
    rcases Nat.eq_or_lt_of_le hle with heq | hgt
    · exfalso
      rw [← heq, List.getD_eq_getElem?_getD, hb] at hge
      simp only [Option.getD_some] at hge
      omega
    · omega
  · exact key _ (by omega)

/-- The function `strings.TrimSpace` returns the part of the string between
two offsets that enclose every ASCII byte that is not white space. -/
theorem TrimSpace_anchors (s : List Byte) (a b : Nat) (ca cb : Byte) (hab : a ≤ b)
    (ha : s[a]? = some ca) (hca : ca.val < RuneSelf) (hsa : IsSpace ca.val = false)
    (hb : s[b]? = some cb) (hcb : cb.val < RuneSelf) (hsb : IsSpace cb.val = false) :
    ∃ kL kR, TrimSpace s = (s.drop kL).take kR ∧ kL ≤ a ∧ b + 1 ≤ kL + kR ∧
      kL + kR ≤ s.length := by
  obtain ⟨kL, hkL, hL⟩ := TrimLeftFunc_anchor s a ca ha hca hsa
  have hb2 : (s.drop kL)[b - kL]? = some cb := by
    rw [List.getElem?_drop, ← hb]
    congr 1
    omega
  obtain ⟨kR, hkR, hkR2, hR⟩ := TrimRightFunc_anchor (s.drop kL) (b - kL) cb hb2 hcb hsb
  refine ⟨kL, kR, ?_, hkL, by omega, ?_⟩
  · rw [TrimSpace, TrimFunc, hL, hR]
  · rw [List.length_drop] at hkR2
    have : b < s.length := (List.getElem?_eq_some.mp hb).1
    omega

/-- A string that `hex.DecodeString` accepts has two valid digits per decoded
byte and nothing else. -/
theorem hexDecodeString_ok (s : List Byte) (h : (hexDecodeString s).2 = none) :
    s.length = 2 * (hexDecodeString s).1.length ∧ ∀ ch ∈ s, fromHexChar ch ≠ none := by
  induction s using hexDecodeString.induct with
  | case1 => simp [hexDecodeString]
  | case2 p hp => simp [hexDecodeString, hp] at h
  | case3 p x hp => simp [hexDecodeString, hp] at h
  | case4 p q rest hp => simp [hexDecodeString, hp] at h
  | case5 p q rest a ha hq => simp [hexDecodeString, ha, hq] at h
  | case6 p q rest a ha b hb ih =>
    simp only [hexDecodeString, ha, hb] at h ⊢
    obtain ⟨h1, h2⟩ := ih h
    refine ⟨by simp only [List.length_cons]; omega, ?_⟩
    intro ch hch
    rcases List.mem_cons.mp hch with rfl | hch
    · simp [ha]
    · rcases List.mem_cons.mp hch with rfl | hch
      · simp [hb]
      · exact h2 ch hch

/-- Replacing one digit of a hex encoding changes at most the byte the digit
belongs to. -/
theorem hexDecodeString_set (E : List Byte) :
    ∀ (j : Nat) (x : Byte), (hexDecodeString ((hexEncode E).set j x)).2 = none →
      ∃ y, (hexDecodeString ((hexEncode E).set j x)).1 = E.set (j / 2) y := by
  induction E with
  | nil =>
    intro j x _
    exact ⟨0, by simp [hexEncode, hexDecodeString]⟩
  | cons b rest ih =>
    intro j x h
    have h1 : b.val / 16 < 16 := by have := b.isLt; omega
    have h2 : b.val % 16 < 16 := by omega
    rcases j with _ | _ | j
    · simp only [hexEncode, List.set_cons_zero, hexDecodeString] at h ⊢
      cases hx : fromHexChar x with
      | none => simp [hx] at h
      | some a =>
        simp only [hx, fromHexChar_hexDigit _ h2, hexDecodeString_hexEncode]
        exact ⟨_, rfl⟩
    · simp only [hexEncode, List.set_cons_succ, List.set_cons_zero, hexDecodeString,
        fromHexChar_hexDigit _ h1] at h ⊢
      cases hx : fromHexChar x with
      | none => simp [hx] at h
      | some a =>
        simp only [hx, hexDecodeString_hexEncode]
        exact ⟨_, rfl⟩
    · simp only [hexEncode, List.set_cons_succ, hexDecodeString, fromHexChar_hexDigit _ h1,
        fromHexChar_hexDigit _ h2, ofNat_nibbles] at h ⊢
      obtain ⟨y, hy⟩ := ih j x h
      refine ⟨y, ?_⟩
      rw [hy]
      have : (j + 1 + 1) / 2 = j / 2 + 1 := by omega
      rw [this, List.set_cons_succ]

/-- No single-bit flip of a newline is a hex digit. -/
theorem fromHexChar_flip_newline (k : Nat) (hk : k < 8) :
    fromHexChar (flipBitByte 10 k) = none := by
  interval_cases k <;> rfl

/-- A digit of a hex encoding, as an anchor for trimming. -/
theorem hexEncode_getElem? (E : List Byte) (a : Nat) (ha : a < 2 * E.length) :
    ∃ c, (hexEncode E)[a]? = some c ∧ c.val < RuneSelf ∧ IsSpace c.val = false := by
  have hlt : a < (hexEncode E).length := by rw [length_hexEncode]; exact ha
  refine ⟨(hexEncode E)[a], List.getElem?_eq_getElem hlt, ?_⟩
  exact not_space_of_mem_hexEncode E _ (List.getElem_mem _)

/-- What a key file with one bit flipped decodes to, when it decodes at all:
the envelope with at most one byte replaced. -/
theorem hexDecodeString_flipped_line (E : List Byte) (hE : E.length = 136) (i : Nat)
    (hdec : (hexDecodeString (TrimSpace (flipBit (sprintfHexLine E) i))).2 = none) :
    ∃ k y, (hexDecodeString (TrimSpace (flipBit (sprintfHexLine E) i))).1 = E.set k y := by
  have hlen : (hexEncode E).length = 272 := by rw [length_hexEncode, hE]
  obtain ⟨hok1, hok2⟩ := hexDecodeString_ok _ hdec
  generalize hx : flipBitByte ((sprintfHexLine E).getD (i / 8) 0) (i % 8) = x at *
  have hs : flipBit (sprintfHexLine E) i = (hexEncode E ++ [10]).set (i / 8) x := by
    rw [flipBit, hx, sprintfHexLine]
  rw [hs] at hdec hok1 hok2 ⊢
  -- the byte at offset 272 is not a hex digit
  have hz : ∃ z, ((hexEncode E ++ [10]).set (i / 8) x)[272]? = some z ∧ fromHexChar z = none := by
    by_cases hj : i / 8 = 272
    · refine ⟨x, by rw [hj, List.getElem?_set_self (by simp [hlen])], ?_⟩
      rw [← hx, hj, sprintfHexLine, List.getD_eq_getElem?_getD,
        List.getElem?_append_right (by omega), hlen]
      exact fromHexChar_flip_newline _ (Nat.mod_lt _ (by decide))
    · refine ⟨10, ?_, rfl⟩
      rw [List.getElem?_set_ne hj, List.getElem?_append_right (by omega), hlen]
      rfl
  obtain ⟨z, hz1, hz2⟩ := hz
  -- two digits next to the ends are untouched
  have hanchor : ∀ a, a < 272 → a ≠ i / 8 → ∃ c,
      ((hexEncode E ++ [10]).set (i / 8) x)[a]? = some c ∧ c.val < RuneSelf ∧
        IsSpace c.val = false := by
    intro a ha hne
    obtain ⟨c, hc1, hc2, hc3⟩ := hexEncode_getElem? E a (by omega)
    refine ⟨c, ?_, hc2, hc3⟩
    rw [List.getElem?_set_ne (Ne.symm hne), List.getElem?_append_left (by omega), hc1]
  have htrim : TrimSpace ((hexEncode E ++ [10]).set (i / 8) x)
      = ((hexEncode E ++ [10]).set (i / 8) x).take 272 := by
    have core : ∀ a b, a ≤ b → b < 272 → 270 + a ≤ b → a ≠ i / 8 → b ≠ i / 8 →
        TrimSpace ((hexEncode E ++ [10]).set (i / 8) x)
          = ((hexEncode E ++ [10]).set (i / 8) x).take 272 := by
      intro a b hab hb272 hwide ha hb
      obtain ⟨ca, ha1, ha2, ha3⟩ := hanchor a (by omega) ha
      obtain ⟨cb, hb1, hb2, hb3⟩ := hanchor b hb272 hb
      obtain ⟨kL, kR, hT, h1, h2, h3⟩ := TrimSpace_anchors _ a b ca cb hab
        ha1 ha2 ha3 hb1 hb2 hb3
      have hslen : ((hexEncode E ++ [10]).set (i / 8) x).length = 273 := by simp [hlen]
      rw [hslen] at h3
      rw [hT] at hok1 hok2
      have hkR : ((List.drop kL ((hexEncode E ++ [10]).set (i / 8) x)).take kR).length = kR := by
        rw [List.length_take, List.length_drop, hslen]; omega
      rw [hkR] at hok1
      have hle : kL + kR ≤ 272 := by
        by_contra hgt
        have h273 : kL + kR = 273 := by omega
        have hmem : z ∈ (List.drop kL ((hexEncode E ++ [10]).set (i / 8) x)).take kR := by
          apply List.getElem?_mem (n := kR - 1)
          rw [List.getElem?_take_of_lt (by omega), List.getElem?_drop, ← hz1]
          congr 1
          omega
        exact hok2 z hmem hz2
      have hkL0 : kL = 0 := by omega
      have hkR2 : kR = 272 := by omega
      rw [hT, hkL0, hkR2, List.drop_zero]
    by_cases hj0 : i / 8 = 0
    · exact core 1 271 (by omega) (by omega) (by omega) (by omega) (by omega)
    · by_cases hj1 : 271 ≤ i / 8
      · exact core 0 270 (by omega) (by omega) (by omega) (by omega) (by omega)
      · exact core 0 271 (by omega) (by omega) (by omega) (by omega) (by omega)
  rw [htrim] at hdec ⊢
  by_cases hj : i / 8 < 272
  · have e : ((hexEncode E ++ [10]).set (i / 8) x).take 272 = (hexEncode E).set (i / 8) x := by
      rw [List.set_append_left _ _ (by omega)]
      exact take_append_of_length _ _ _ (by simp [hlen])
    rw [e] at hdec ⊢
    obtain ⟨y, hy⟩ := hexDecodeString_set E (i / 8) x hdec
    exact ⟨_, y, hy⟩
  · have e : ((hexEncode E ++ [10]).set (i / 8) x).take 272 = hexEncode E := by
      rw [List.set_append_right _ _ (by omega)]
      exact take_append_of_length _ _ _ hlen
    rw [e, hexDecodeString_hexEncode]
    exact ⟨E.length, 0, (List.set_eq_of_length_le (le_refl _)).symm⟩

/-! ## Lemmas on `keyfile.go` -/

set_option maxRecDepth 1000000

/-- The load of a file that decodes to 96 bytes. -/
theorem LoadKeyFromFileArg_of_plain (c : Crypto) (w : World) (filename : String)
    (data B pass : List Byte) (hfile : w.fs filename = .file data)
    (hdec : hexDecodeString (TrimSpace data) = (B, none)) (hlen : B.length = 96) :
    LoadKeyFromFileArg c w filename pass =
      ((some B, none),
        Printf (Printf (Printf w "WARNING!! Key file not encrypted!!\n")
          "Anyone who can read the key file can take everything!\n")
          "You should start over and use a good passphrase!\n") := by
  simp only [LoadKeyFromFileArg, ReadFile, hfile, hdec, hlen, if_true, goCopy_zeros 96 B hlen]

/-- The load of a file that decodes to 136 bytes, once the key is derived. -/
theorem LoadKeyFromFileArg_of_sealed (c : Crypto) (w : World) (filename : String)
    (data E pass dk : List Byte) (hfile : w.fs filename = .file data)
    (hdec : hexDecodeString (TrimSpace data) = (E, none)) (hlen : E.length = 136)
    (hkey : c.scryptKey pass (E.take 24) 16384 8 1 32 = .ok dk) :
    LoadKeyFromFileArg c w filename pass =
      match c.secretboxOpen (E.drop 24) (E.take 24) dk with
      | none =>
        ((some (zeros 96), some (.errorf ("Decryption failed for " ++ filename ++ " "))), w)
      | some priv => ((some (goCopy (zeros 96) priv), none), w) := by
  have hsalt : goCopy (zeros 24) (E.take 24) = E.take 24 :=
    goCopy_zeros 24 _ (by simp [hlen])
  have hdk : goCopy (zeros 32) dk = dk :=
    goCopy_zeros 32 _ (c.scryptKey_length _ _ _ _ _ _ _ hkey)
  simp only [LoadKeyFromFileArg, ReadFile, hfile, hdec, hlen, hsalt, hkey, hdk]
  simp

/-- The result of a load depends on the world only through the file. -/
theorem LoadKeyFromFileArg_fst_congr (c : Crypto) (w1 w2 : World) (filename : String)
    (pass : List Byte) (h : w1.fs filename = w2.fs filename) :
    (LoadKeyFromFileArg c w1 filename pass).1 = (LoadKeyFromFileArg c w2 filename pass).1 := by
  simp only [LoadKeyFromFileArg, ReadFile, h]
  repeat' split
  all_goals rfl

/-- A load leaves the terminal alone. -/
theorem LoadKeyFromFileArg_ttyPos (c : Crypto) (w : World) (filename : String)
    (pass : List Byte) : (LoadKeyFromFileArg c w filename pass).2.ttyPos = w.ttyPos := by
  simp only [LoadKeyFromFileArg]
  repeat' split
  all_goals rfl

/-- A successful save without passphrase leaves the secret as one hex line. -/
theorem SaveKeyToFileArg_plain_ok (c : Crypto) (w : World) (filename : String)
    (priv : List Byte) (hsave : (SaveKeyToFileArg c w filename priv []).1 = none) :
    (SaveKeyToFileArg c w filename priv []).2.fs filename = .file (sprintfHexLine priv) := by
  simp only [SaveKeyToFileArg, WriteFile, List.length_nil, if_true] at hsave ⊢
  cases hw : w.writeErr filename with
  | some err => simp [hw] at hsave
  | none => simp [Printf, World.setFile]

/-- A successful save with a passphrase drew 24 random bytes as salt, derived
a key from them and left `salt ++ Seal(priv)` as one hex line. -/
theorem SaveKeyToFileArg_sealed_ok (c : Crypto) (w : World) (filename : String)
    (priv pass : List Byte) (hP : pass ≠ [])
    (hsave : (SaveKeyToFileArg c w filename priv pass).1 = none) :
    ∃ dk, 24 ≤ w.entropy.length ∧
      c.scryptKey pass (w.entropy.take 24) 16384 8 1 32 = .ok dk ∧
      (SaveKeyToFileArg c w filename priv pass).2.fs filename =
        .file (sprintfHexLine
          (w.entropy.take 24 ++ c.secretboxSeal priv (w.entropy.take 24) dk)) := by
  have hlen : ¬ pass.length = 0 := by simpa using hP
  simp only [SaveKeyToFileArg, WriteFile, randRead, if_neg hlen] at hsave ⊢
  by_cases hent : w.entropy.length < 24
  · simp [hent] at hsave
  · simp only [if_neg hent] at hsave ⊢
    cases hkey : c.scryptKey pass (List.take 24 w.entropy) 16384 8 1 32 with
    | error err => simp [hkey] at hsave
    | ok dk =>
      have hdk : goCopy (zeros 32) dk = dk :=
        goCopy_zeros 32 _ (c.scryptKey_length _ _ _ _ _ _ _ hkey)
      simp only [hkey, hdk] at hsave ⊢
      cases hw : w.writeErr filename with
      | some err => simp [hw] at hsave
      | none => exact ⟨dk, by omega, rfl, by simp [Printf, World.setFile]⟩

/-- A save without passphrase succeeds when the write does. -/
theorem SaveKeyToFileArg_plain_eq (c : Crypto) (w : World) (filename : String)
    (priv : List Byte) (hw : w.writeErr filename = none) :
    SaveKeyToFileArg c w filename priv [] =
      (none, Printf (Printf (Printf (Printf (w.setFile filename (sprintfHexLine priv))
        "WARNING!! Key file not encrypted!!\n")
        "Anyone who can read the key file can take everything!\n")
        "You should start over and use a good passphrase!\n")
        ("Saved unencrypted key at " ++ filename ++ "\n")) := by
  simp [SaveKeyToFileArg, WriteFile, hw]

/-- A save with a passphrase succeeds when the random source, scrypt and the
write do. -/
theorem SaveKeyToFileArg_sealed_eq (c : Crypto) (w : World) (filename : String)
    (priv pass dk : List Byte) (hP : pass ≠ []) (hent : 24 ≤ w.entropy.length)
    (hkey : c.scryptKey pass (w.entropy.take 24) 16384 8 1 32 = .ok dk)
    (hw : w.writeErr filename = none) :
    SaveKeyToFileArg c w filename priv pass =
      (none, Printf (World.setFile { w with entropy := w.entropy.drop 24 } filename
        (sprintfHexLine (w.entropy.take 24 ++ c.secretboxSeal priv (w.entropy.take 24) dk)))
        ("Wrote encrypted key to " ++ filename ++ "\n")) := by
  have hlen : ¬ pass.length = 0 := by simpa using hP
  have hent2 : ¬ w.entropy.length < 24 := by omega
  have hdk : goCopy (zeros 32) dk = dk :=
    goCopy_zeros 32 _ (c.scryptKey_length _ _ _ _ _ _ _ hkey)
  simp only [SaveKeyToFileArg, randRead, if_neg hlen, if_neg hent2, hkey, hdk, WriteFile]
  simp [World.setFile, hw]

/-- The load of any file that decodes to a sealed envelope, with the passphrase
it was sealed under, when `secretbox.Open` undoes `secretbox.Seal`. -/
theorem LoadKeyFromFileArg_of_decoded_envelope (c : Crypto) (w : World) (filename : String)
    (data priv pass salt dk : List Byte) (hpriv : priv.length = 96) (hsalt : salt.length = 24)
    (hfile : w.fs filename = .file data)
    (hdec : hexDecodeString (TrimSpace data) = (salt ++ c.secretboxSeal priv salt dk, none))
    (hkey : c.scryptKey pass salt 16384 8 1 32 = .ok dk)
    (hopen : c.secretboxOpen (c.secretboxSeal priv salt dk) salt dk = some priv) :
    LoadKeyFromFileArg c w filename pass = ((some priv, none), w) := by
  have htake : (salt ++ c.secretboxSeal priv salt dk).take 24 = salt :=
    take_append_of_length _ _ _ hsalt
  have hdrop : (salt ++ c.secretboxSeal priv salt dk).drop 24 = c.secretboxSeal priv salt dk :=
    drop_append_of_length _ _ _ hsalt
  have hlen : (salt ++ c.secretboxSeal priv salt dk).length = 136 := by
    rw [List.length_append, c.secretboxSeal_length, hsalt, hpriv]
  rw [LoadKeyFromFileArg_of_sealed c w filename _ _ pass dk hfile hdec hlen
    (by rw [htake]; exact hkey)]
  rw [htake, hdrop, hopen]
  simp only [goCopy_zeros 96 priv hpriv]

/-- The load of the hex line of a sealed envelope with the passphrase it was
sealed under, when `secretbox.Open` undoes `secretbox.Seal`. -/
theorem LoadKeyFromFileArg_of_envelope (c : Crypto) (w : World) (filename : String)
    (priv pass salt dk : List Byte) (hpriv : priv.length = 96) (hsalt : salt.length = 24)
    (hfile : w.fs filename = .file (sprintfHexLine (salt ++ c.secretboxSeal priv salt dk)))
    (hkey : c.scryptKey pass salt 16384 8 1 32 = .ok dk)
    (hopen : c.secretboxOpen (c.secretboxSeal priv salt dk) salt dk = some priv) :
    LoadKeyFromFileArg c w filename pass = ((some priv, none), w) :=
  LoadKeyFromFileArg_of_decoded_envelope c w filename _ priv pass salt dk hpriv hsalt hfile
    (hexDecodeString_TrimSpace_sprintfHexLine _) hkey hopen

theorem flipBitByte_ne (b : Byte) (k : Nat) (hk : k < 8) : flipBitByte b k ≠ b := by
  revert b
  interval_cases k <;> decide

theorem flipBit_ne (data : List Byte) (i : Nat) (hi : i < 8 * data.length) :
    flipBit data i ≠ data := by
  intro h
  have h8 : i / 8 < data.length := by omega
  have h1 := congrArg (fun l => l.getD (i / 8) 0) h
  simp only [flipBit, List.getD_eq_getElem?_getD, List.getElem?_set_self h8] at h1
  exact flipBitByte_ne _ _ (Nat.mod_lt _ (by decide)) h1

/-- The hex decoder reads the first digit in either case: whatever the
primitives, when the salt drawn starts with the byte `0xab` the key file starts
with the digit `a`; flipping bit 5 of that byte makes it `A`, a different file
that decodes to the same envelope, so the load returns the secret. -/
theorem LoadKeyFromFileArg_of_case_flip (c : Crypto) (w : World) (filename : String)
    (S P : List Byte) (hS : S.length = 96) (hP : P ≠ [])
    (hinv : ∀ m n k, c.secretboxOpen (c.secretboxSeal m n k) n k = some m)
    (hsave : (SaveKeyToFileArg c w filename S P).1 = none)
    (h0 : w.entropy.head? = some 171) :
    ∃ data, (SaveKeyToFileArg c w filename S P).2.fs filename = .file data ∧
      flipBit data 5 ≠ data ∧
      (LoadKeyFromFileArg c
        ((SaveKeyToFileArg c w filename S P).2.setFile filename (flipBit data 5))
        filename P).1 = (some S, none) := by
  obtain ⟨dk, hent, hkey, hfile⟩ := SaveKeyToFileArg_sealed_ok c w filename S P hP hsave
  have hsalt : (w.entropy.take 24).length = 24 := by simp [hent]
  obtain ⟨t, ht⟩ : ∃ t, w.entropy.take 24 ++ c.secretboxSeal S (w.entropy.take 24) dk
      = 171 :: t := by
    cases he : w.entropy with
    | nil => simp [he] at h0
    | cons a rest =>
      simp only [he, List.head?_cons, Option.some.injEq] at h0
      subst h0
      exact ⟨_, rfl⟩
  have hline : sprintfHexLine (171 :: t) = 97 :: 98 :: (hexEncode t ++ [10]) := rfl
  have hflip : flipBit (sprintfHexLine (171 :: t)) 5 = (65 :: 98 :: hexEncode t) ++ [10] := by
    rw [hline]
    have e5 : (5 : Nat) / 8 = 0 := by decide
    have e6 : flipBitByte 97 (5 % 8) = 65 := by decide
    simp only [flipBit, e5, List.getD_cons_zero, e6, List.set_cons_zero, List.cons_append]
  have hmem : ∀ ch ∈ (65 : Byte) :: 98 :: hexEncode t,
      ch.val < RuneSelf ∧ IsSpace ch.val = false := by
    intro ch hch
    simp only [List.mem_cons] at hch
    rcases hch with rfl | rfl | hch
    · exact ⟨by decide, by rfl⟩
    · exact ⟨by decide, by rfl⟩
    · exact not_space_of_mem_hexEncode t ch hch
  have hdec : hexDecodeString (TrimSpace (flipBit (sprintfHexLine (171 :: t)) 5))
      = (171 :: t, none) := by
    rw [hflip, TrimSpace_line _ hmem]
    have e1 : fromHexChar (65 : Byte) = some 10 := by rfl
    have e2 : fromHexChar (98 : Byte) = some 11 := by rfl
    simp only [hexDecodeString, e1, e2, hexDecodeString_hexEncode]
    rfl
  have hdec2 : hexDecodeString (TrimSpace (flipBit (sprintfHexLine (171 :: t)) 5))
      = (w.entropy.take 24 ++ c.secretboxSeal S (w.entropy.take 24) dk, none) := by
    rw [ht]; exact hdec
  rw [ht] at hfile
  refine ⟨sprintfHexLine (171 :: t), hfile,
    flipBit_ne _ _ (by simp only [sprintfHexLine, List.length_append,
      List.length_singleton]; omega), ?_⟩
  rw [LoadKeyFromFileArg_of_decoded_envelope c _ filename
    (flipBit (sprintfHexLine (171 :: t)) 5) S P _ dk hS hsalt
    (by simp [World.setFile]) hdec2 hkey (hinv _ _ _)]

/-- One turn of the loop of `SaveKeyToFileInteractive` in which the terminal
gives the same passphrase twice. -/
theorem SaveKeyToFileInteractive_of_match (c : Crypto) (fuel : Nat) (w : World)
    (filename : String) (priv P : List Byte) (h1 : w.tty w.ttyPos = .ok P)
    (h2 : w.tty (w.ttyPos + 1) = .ok P) :
    SaveKeyToFileInteractive c (fuel + 1) w filename priv =
      some (SaveKeyToFileArg c
        { w with ttyPos := w.ttyPos + 2,
                 stdout := w.stdout ++ "passphrase: " ++ "repeat passphrase: " ++ "\n" }
        filename priv P) := by
  simp [SaveKeyToFileInteractive, GetPasswd, Printf, h1, h2]

/-- The load of a file of 193 bytes or more asks the terminal first. -/
theorem LoadKeyFromFileInteractive_of_prompt (c : Crypto) (w : World) (filename : String)
    (data P : List Byte) (hfile : w.fs filename = .file data) (hlen : 193 ≤ data.length)
    (h1 : w.tty w.ttyPos = .ok P) :
    LoadKeyFromFileInteractive c w filename =
      LoadKeyFromFileArg c
        { w with ttyPos := w.ttyPos + 1, stdout := w.stdout ++ "passphrase: " ++ "\n" }
        filename P := by
  have h : ¬ data.length < 193 := by omega
  simp [LoadKeyFromFileInteractive, Stat, hfile, h, GetPasswd, Printf, h1]

/-- Below the guard of 193 bytes `LoadKeyFromFileInteractive` asks nothing and
is `LoadKeyFromFileArg` with a nil passphrase. -/
theorem LoadKeyFromFileInteractive_of_short (c : Crypto) (w : World) (filename : String)
    (data : List Byte) (hfile : w.fs filename = .file data) (hlen : data.length < 193) :
    LoadKeyFromFileInteractive c w filename = LoadKeyFromFileArg c w filename [] ∧
      (LoadKeyFromFileInteractive c w filename).2.ttyPos = w.ttyPos := by
  have h : LoadKeyFromFileInteractive c w filename = LoadKeyFromFileArg c w filename [] := by
    simp only [LoadKeyFromFileInteractive, Stat, hfile, hlen, if_true]
  exact ⟨h, by rw [h, LoadKeyFromFileArg_ttyPos]⟩

/-! ## Lemmas on the sample data -/

theorem demoOpen_demoSeal (m n k : List Byte) : demoOpen (demoSeal m n k) n k = some m := by
  have h16 : (demoTag m n k).length = 16 := by simp [demoTag]
  have hm : List.map ((fun b => b - sumBytes k) ∘ fun b => b + sumBytes k) m = m := by
    have : ((fun b : Byte => b - sumBytes k) ∘ fun b => b + sumBytes k) = id := by
      funext b; simp
    rw [this, List.map_id]
  unfold demoOpen demoSeal
  rw [take_append_of_length _ _ 16 h16, drop_append_of_length _ _ 16 h16, List.map_map, hm]
  simp

theorem length_demoSecret : demoSecret.length = 96 := by simp [demoSecret]

theorem demoPass_ne_nil : demoPass ≠ [] := by decide

theorem sumBytes_cons (a : Byte) (l : List Byte) : sumBytes (a :: l) = a + sumBytes l := rfl

theorem sumBytes_map_add (l : List Byte) (d : Byte) :
    sumBytes (l.map fun b => b + d) = sumBytes l + (l.length : Byte) * d := by
  induction l with
  | nil => simp [sumBytes]
  | cons a t ih =>
    simp only [List.map_cons, sumBytes_cons, ih, List.length_cons, Nat.cast_succ]
    ring

theorem sumBytes_set (l : List Byte) (k : Nat) (y : Byte) (hk : k < l.length) :
    sumBytes (l.set k y) = sumBytes l - l[k] + y := by
  induction l generalizing k with
  | nil => simp at hk
  | cons a t ih =>
    cases k with
    | zero => simp only [List.set_cons_zero, sumBytes_cons, List.getElem_cons_zero]; ring
    | succ n =>
      simp only [List.set_cons_succ, sumBytes_cons, List.getElem_cons_succ]
      rw [ih n (by simpa using hk)]
      ring

theorem sumBytes_demoKey (q : Byte) :
    sumBytes ((List.range 32).map fun i => q + Fin.ofNat i) = 32 * q + 240 := by
  revert q; decide

theorem mul33_ne_zero (d : Byte) (h : d ≠ 0) : d + 32 * d ≠ 0 := by
  revert d; decide

theorem sumBytes_demoScryptKey (pass salt dk : List Byte)
    (h : demoScryptKey pass salt 16384 8 1 32 = .ok dk) :
    sumBytes dk = 32 * (sumBytes pass + sumBytes salt) + 240 := by
  simp only [demoScryptKey, show ¬ (16384 ≤ 1) by decide, if_false, Except.ok.injEq] at h
  rw [← h, sumBytes_demoKey]

theorem map_sub_map_add (l : List Byte) (a b : Byte) :
    (l.map fun x => x + a).map (fun x => x - b) = l.map fun x => x + (a - b) := by
  rw [List.map_map]
  apply List.map_congr_left
  intro x _
  simp only [Function.comp]
  ring

theorem map_add_map_sub (l : List Byte) (a : Byte) :
    (l.map fun x => x + a).map (fun x => x - a) = l := by
  rw [List.map_map]
  conv_rhs => rw [← List.map_id l]
  apply List.map_congr_left
  intro x _
  simp

theorem set_ne_self (l : List Byte) (k : Nat) (y : Byte) (h : l.set k y ≠ l) :
    ∃ hk : k < l.length, y ≠ l[k] := by
  by_cases hk : k < l.length
  · refine ⟨hk, fun e => h ?_⟩
    subst e
    apply List.ext_getElem (by simp)
    intro n h1 h2
    by_cases hn : k = n
    · subst hn; simp
    · simp [List.getElem_set_ne hn]
  · exact absurd (List.set_eq_of_length_le (by omega)) h

theorem demoOpen_eq_none (tag body nonce key : List Byte) (htag : tag.length = 16)
    (h : tag ≠ List.replicate 16
      (sumBytes (body.map fun b => b - sumBytes key) + sumBytes nonce + sumBytes key)) :
    demoOpen (tag ++ body) nonce key = none := by
  unfold demoOpen demoTag
  rw [take_append_of_length _ _ 16 htag, drop_append_of_length _ _ 16 htag]
  simp only [h, if_false]

/-- The stand-in primitives reject every sealed envelope in which one byte was
replaced, the key being derived anew from the salt as found. -/
theorem demoOpen_altered (S P salt dk dk2 : List Byte) (k : Nat) (y : Byte)
    (hS : S.length = 96) (hsalt : salt.length = 24)
    (hdk : demoScryptKey P salt 16384 8 1 32 = .ok dk)
    (hne : (salt ++ demoSeal S salt dk).set k y ≠ salt ++ demoSeal S salt dk)
    (hdk2 : demoScryptKey P (((salt ++ demoSeal S salt dk).set k y).take 24) 16384 8 1 32
      = .ok dk2) :
    demoOpen (((salt ++ demoSeal S salt dk).set k y).drop 24)
      (((salt ++ demoSeal S salt dk).set k y).take 24) dk2 = none := by
  have hsk := sumBytes_demoScryptKey _ _ _ hdk
  have htag : (demoTag S salt dk).length = 16 := by simp [demoTag]
  have h96 : ((96 : Nat) : Byte) * 32 = 0 := by decide
  by_cases hk1 : k < 24
  · -- a byte of the salt
    have hset : (salt ++ demoSeal S salt dk).set k y = salt.set k y ++ demoSeal S salt dk := by
      rw [List.set_append_left _ _ (by omega)]
    have hlen2 : (salt.set k y).length = 24 := by simp [hsalt]
    rw [hset] at hne hdk2 ⊢
    rw [take_append_of_length _ _ 24 hlen2] at hdk2 ⊢
    rw [drop_append_of_length _ _ 24 hlen2]
    have hsk2 := sumBytes_demoScryptKey _ _ _ hdk2
    obtain ⟨hk, hy⟩ := set_ne_self salt k y (fun e => hne (by rw [e]))
    rw [sumBytes_set _ _ _ hk] at hsk2
    unfold demoSeal
    apply demoOpen_eq_none _ _ _ _ htag
    rw [map_sub_map_add, sumBytes_map_add, hS, sumBytes_set _ _ _ hk, hsk, hsk2]
    unfold demoTag
    intro he
    have he2 := (List.replicate_inj.mp he).2.resolve_left (by decide)
    rw [hsk] at he2
    have hd : (y - salt[k]) + 32 * (y - salt[k]) = 0 := by
      generalize ((96 : Nat) : Byte) = c at h96 he2
      have e3 : c * (32 * (sumBytes P + sumBytes salt) + 240
          - (32 * (sumBytes P + (sumBytes salt - salt[k] + y)) + 240))
          = c * 32 * (salt[k] - y) := by ring
      rw [e3, h96, zero_mul, add_zero] at he2
      linear_combination (-1 : Byte) * he2
    exact mul33_ne_zero _ (sub_ne_zero.mpr hy) hd
  · -- a byte of the box
    have hset : (salt ++ demoSeal S salt dk).set k y
        = salt ++ (demoSeal S salt dk).set (k - 24) y := by
      rw [List.set_append_right _ _ (by omega), hsalt]
    rw [hset] at hne hdk2 ⊢
    rw [take_append_of_length _ _ 24 hsalt] at hdk2 ⊢
    rw [drop_append_of_length _ _ 24 hsalt]
    rw [hdk] at hdk2
    injection hdk2 with hdk2
    subst hdk2
    have hne2 : (demoSeal S salt dk).set (k - 24) y ≠ demoSeal S salt dk :=
      fun e => hne (by rw [e])
    unfold demoSeal at hne2 ⊢
    by_cases hk2 : k - 24 < 16
    · -- a byte of the tag
      rw [List.set_append_left _ _ (by omega)] at hne2 ⊢
      apply demoOpen_eq_none _ _ _ _ (by simp [htag])
      rw [map_add_map_sub]
      exact fun e => hne2 (by rw [e]; rfl)
    · -- a byte of the body
      rw [List.set_append_right _ _ (by omega), htag] at hne2 ⊢
      obtain ⟨hj, hy⟩ := set_ne_self _ _ y (fun e => hne2 (by rw [e]))
      apply demoOpen_eq_none _ _ _ _ htag
      rw [List.map_set, map_add_map_sub]
      rw [List.length_map] at hj
      rw [sumBytes_set _ _ _ hj]
      unfold demoTag
      intro he
      have he2 := (List.replicate_inj.mp he).2.resolve_left (by decide)
      apply hy
      rw [List.getElem_map]
      linear_combination (-1 : Byte) * he2

/-- The sample envelope is the salt drawn followed by the stand-in box. -/
theorem demoEnvelope_eq :
    demoEnvelope = demoWorld.entropy.take 24 ++
      demoSeal demoSecret (demoWorld.entropy.take 24) demoKey := by
  decide

/-- The stand-in primitives reject the sample envelope with any one byte
replaced: on the sample file the only successful loads are those of the
unchanged envelope. -/
theorem demoEnvelope_altered_rejected (k : Nat) (y : Byte) (dk2 : List Byte)
    (hne : demoEnvelope.set k y ≠ demoEnvelope)
    (hdk2 : demoCrypto.scryptKey demoPass ((demoEnvelope.set k y).take 24) 16384 8 1 32
      = .ok dk2) :
    demoCrypto.secretboxOpen ((demoEnvelope.set k y).drop 24)
      ((demoEnvelope.set k y).take 24) dk2 = none := by
  rw [demoEnvelope_eq] at hne hdk2 ⊢
  exact demoOpen_altered demoSecret demoPass _ demoKey dk2 k y length_demoSecret
    (by decide) rfl hne hdk2

/-! ## The claims -/

/-- Claim C1, encrypted round trip: when `SaveKeyToFileArg` succeeds on a
96-byte secret with a non-empty passphrase, and `secretbox.Open` undoes
`secretbox.Seal` under the same nonce and key, `LoadKeyFromFileArg` with the
same passphrase on the world the save left returns the secret and no error. -/
theorem save_load_encrypted (c : Crypto) (w : World) (filename : String) (S P : List Byte)
    (hS : S.length = 96) (hP : P ≠ [])
    (hinv : ∀ m n k, c.secretboxOpen (c.secretboxSeal m n k) n k = some m)
    (hsave : (SaveKeyToFileArg c w filename S P).1 = none) :
    (LoadKeyFromFileArg c (SaveKeyToFileArg c w filename S P).2 filename P).1
      = (some S, none) := by
  obtain ⟨dk, hent, hkey, hfile⟩ := SaveKeyToFileArg_sealed_ok c w filename S P hP hsave
  have hsalt : (w.entropy.take 24).length = 24 := by simp [hent]
  rw [LoadKeyFromFileArg_of_envelope c _ filename S P _ dk hS hsalt hfile hkey (hinv _ _ _)]

/-- The encrypted round trip on the sample world. -/
theorem save_load_encrypted_witness :
    (LoadKeyFromFileArg demoCrypto demoSavedWorld "key.hex" demoPass).1
      = (some demoSecret, none) :=
  save_load_encrypted demoCrypto demoWorld "key.hex" demoSecret demoPass length_demoSecret
    demoPass_ne_nil demoOpen_demoSeal (by decide)

/-- Claim C2, plaintext round trip: when `SaveKeyToFileArg` succeeds on a
96-byte secret with the empty passphrase, the stored file, trimmed, hex-decodes
to exactly the 96 bytes of the secret, and `LoadKeyFromFileArg` with the empty
passphrase returns the secret and no error. -/
theorem save_load_plain (c : Crypto) (w : World) (filename : String) (S : List Byte)
    (hS : S.length = 96) (hsave : (SaveKeyToFileArg c w filename S []).1 = none) :
    ∃ data, (SaveKeyToFileArg c w filename S []).2.fs filename = .file data ∧
      hexDecodeString (TrimSpace data) = (S, none) ∧
      (hexDecodeString (TrimSpace data)).1.length = 96 ∧
      (LoadKeyFromFileArg c (SaveKeyToFileArg c w filename S []).2 filename []).1
        = (some S, none) := by
  have hfile := SaveKeyToFileArg_plain_ok c w filename S hsave
  have hdec := hexDecodeString_TrimSpace_sprintfHexLine S
  refine ⟨sprintfHexLine S, hfile, hdec, by rw [hdec]; exact hS, ?_⟩
  rw [LoadKeyFromFileArg_of_plain c _ filename _ S [] hfile hdec hS]

/-- The plaintext round trip on the sample world. -/
theorem save_load_plain_witness :
    ∃ data, (SaveKeyToFileArg demoCrypto demoWorld "key.hex" demoSecret []).2.fs "key.hex"
        = .file data ∧
      hexDecodeString (TrimSpace data) = (demoSecret, none) ∧
      (hexDecodeString (TrimSpace data)).1.length = 96 ∧
      (LoadKeyFromFileArg demoCrypto
        (SaveKeyToFileArg demoCrypto demoWorld "key.hex" demoSecret []).2 "key.hex" []).1
        = (some demoSecret, none) :=
  save_load_plain demoCrypto demoWorld "key.hex" demoSecret length_demoSecret (by decide)

/-- Claim C3, format rejection: a file whose trimmed contents hex-decode to a
byte string of a length other than 96 and 136 makes `LoadKeyFromFileArg`, for
every passphrase and whatever the primitives are, return the zeroed key with
the error `Key length error for <filename> ` and leave the world as it was. -/
theorem load_rejects_other_lengths (c : Crypto) (w : World) (filename : String)
    (data B pass : List Byte) (hfile : w.fs filename = .file data)
    (hdec : hexDecodeString (TrimSpace data) = (B, none))
    (h96 : B.length ≠ 96) (h136 : B.length ≠ 136) :
    LoadKeyFromFileArg c w filename pass =
      ((some (zeros 96), some (.errorf ("Key length error for " ++ filename ++ " "))), w) := by
  simp only [LoadKeyFromFileArg, ReadFile, hfile, hdec, if_neg h96, h136, ne_eq,
    not_false_eq_true, if_true]

/-- The rejection of a file that decodes to 50 bytes. -/
theorem load_rejects_other_lengths_witness :
    LoadKeyFromFileArg demoCrypto demoShortWorld "key.hex" demoPass =
      ((some (zeros 96), some (.errorf "Key length error for key.hex ")), demoShortWorld) :=
  load_rejects_other_lengths demoCrypto demoShortWorld "key.hex" (sprintfHexLine (zeros 50))
    (zeros 50) demoPass (by decide) (hexDecodeString_TrimSpace_sprintfHexLine _) (by decide)
    (by decide)

/-- Claim C4 fails as stated: in the file that `SaveKeyToFileArg` wrote for the
sample secret and passphrase, flipping bit 5 of the first byte (the digit `a`
becomes `A`) changes the file and the load still returns the secret with no
error, and flipping bit 4 of it (the digit becomes `q`) makes the load fail
with the invalid-byte error of the hex decoder, not with `Decryption failed`. -/
theorem bitflip_of_file_not_detected :
    (SaveKeyToFileArg demoCrypto demoWorld "key.hex" demoSecret demoPass).1 = none ∧
      demoSavedWorld.fs "key.hex" = .file demoFile ∧
      flipBit demoFile 5 ≠ demoFile ∧
      (LoadKeyFromFileArg demoCrypto (demoSavedWorld.setFile "key.hex" (flipBit demoFile 5))
        "key.hex" demoPass).1 = (some demoSecret, none) ∧
      (LoadKeyFromFileArg demoCrypto (demoSavedWorld.setFile "key.hex" (flipBit demoFile 4))
        "key.hex" demoPass).1 = (some (zeros 96), some (.hexInvalidByte 113)) := by
  refine ⟨by decide, by decide, by decide, by decide, by decide⟩

/-- Claim C4, as the code has it: after a successful `SaveKeyToFileArg` with a
non-empty passphrase the stored file decodes to a 136-byte envelope `E`.
Flipping any single bit of the stored file changes the file, and
`LoadKeyFromFileArg` with the same passphrase then leaves the world as it is
and does one of four things: (a) the hex decoder rejects the file and the load
returns the all-zero key with that error; (b) the file still decodes to `E` and
the load returns the secret with no error; (c) the file decodes to `E` with
one byte replaced, `secretbox.Open` rejects that envelope under the key scrypt
derives from its salt, and the load returns the all-zero key with the error
`Decryption failed for <filename> `; (d) the file decodes to `E` with exactly
one byte replaced, `secretbox.Open` accepts that altered envelope, and the load
returns what `secretbox.Open` returned. So the load never takes the
unencrypted path; and when `secretbox.Open` rejects every envelope that
differs from `E` in one byte, the load returns the secret or fails with the
all-zero key: never a wrong plaintext. -/
theorem single_bit_flip_of_file (c : Crypto) (w : World) (filename : String)
    (S P data : List Byte) (i : Nat) (hS : S.length = 96) (hP : P ≠ [])
    (hinv : ∀ m n k, c.secretboxOpen (c.secretboxSeal m n k) n k = some m)
    (hscrypt : ∀ salt, ∃ dk, c.scryptKey P salt 16384 8 1 32 = .ok dk)
    (hsave : (SaveKeyToFileArg c w filename S P).1 = none)
    (hdata : (SaveKeyToFileArg c w filename S P).2.fs filename = .file data)
    (hi : i < 8 * data.length) :
    ∃ E, hexDecodeString (TrimSpace data) = (E, none) ∧ E.length = 136 ∧
      flipBit data i ≠ data ∧
      (LoadKeyFromFileArg c
        ((SaveKeyToFileArg c w filename S P).2.setFile filename (flipBit data i))
        filename P).2
        = (SaveKeyToFileArg c w filename S P).2.setFile filename (flipBit data i) ∧
      ((∃ e, (hexDecodeString (TrimSpace (flipBit data i))).2 = some e ∧
          (LoadKeyFromFileArg c
            ((SaveKeyToFileArg c w filename S P).2.setFile filename (flipBit data i))
            filename P).1 = (some (List.replicate 96 0), some e)) ∨
        (hexDecodeString (TrimSpace (flipBit data i)) = (E, none) ∧
          (LoadKeyFromFileArg c
            ((SaveKeyToFileArg c w filename S P).2.setFile filename (flipBit data i))
            filename P).1 = (some S, none)) ∨
        (∃ k y dk2, hexDecodeString (TrimSpace (flipBit data i)) = (E.set k y, none) ∧
          c.scryptKey P ((E.set k y).take 24) 16384 8 1 32 = .ok dk2 ∧
          c.secretboxOpen ((E.set k y).drop 24) ((E.set k y).take 24) dk2 = none ∧
          (LoadKeyFromFileArg c
            ((SaveKeyToFileArg c w filename S P).2.setFile filename (flipBit data i))
            filename P).1
            = (some (List.replicate 96 0),
                some (.errorf ("Decryption failed for " ++ filename ++ " ")))) ∨
        (∃ k y dk2 m, hexDecodeString (TrimSpace (flipBit data i)) = (E.set k y, none) ∧
          E.set k y ≠ E ∧
          c.scryptKey P ((E.set k y).take 24) 16384 8 1 32 = .ok dk2 ∧
          c.secretboxOpen ((E.set k y).drop 24) ((E.set k y).take 24) dk2 = some m ∧
          (LoadKeyFromFileArg c
            ((SaveKeyToFileArg c w filename S P).2.setFile filename (flipBit data i))
            filename P).1 = (some (goCopy (zeros 96) m), none))) ∧
      ((∀ k y dk2, E.set k y ≠ E →
          c.scryptKey P ((E.set k y).take 24) 16384 8 1 32 = .ok dk2 →
          c.secretboxOpen ((E.set k y).drop 24) ((E.set k y).take 24) dk2 = none) →
        ((LoadKeyFromFileArg c
            ((SaveKeyToFileArg c w filename S P).2.setFile filename (flipBit data i))
            filename P).1 = (some S, none) ∨
          ∃ e, (LoadKeyFromFileArg c
            ((SaveKeyToFileArg c w filename S P).2.setFile filename (flipBit data i))
            filename P).1 = (some (List.replicate 96 0), some e))) := by
  obtain ⟨dk, hent, hkey, hfile⟩ := SaveKeyToFileArg_sealed_ok c w filename S P hP hsave
  have hsalt : (w.entropy.take 24).length = 24 := by simp [hent]
  rw [hdata] at hfile
  have hd : data = sprintfHexLine
      (w.entropy.take 24 ++ c.secretboxSeal S (w.entropy.take 24) dk) := by
    injection hfile
  generalize hE0 : w.entropy.take 24 ++ c.secretboxSeal S (w.entropy.take 24) dk = E0 at hd
  have hE0len : E0.length = 136 := by
    rw [← hE0, List.length_append, c.secretboxSeal_length, hsalt, hS]
  subst hd
  have hfile2 : ((SaveKeyToFileArg c w filename S P).2.setFile filename
      (flipBit (sprintfHexLine E0) i)).fs filename = .file (flipBit (sprintfHexLine E0) i) := by
    simp [World.setFile]
  refine ⟨E0, hexDecodeString_TrimSpace_sprintfHexLine E0, hE0len, flipBit_ne _ _ hi, ?_⟩
  rcases hdec : hexDecodeString (TrimSpace (flipBit (sprintfHexLine E0) i)) with ⟨E1, _ | e⟩
  · -- the flipped file decodes
    obtain ⟨k, y, hky⟩ := hexDecodeString_flipped_line E0 hE0len i (by rw [hdec])
    rw [hdec] at hky
    simp only at hky
    subst hky
    obtain ⟨dk2, hdk2⟩ := hscrypt ((E0.set k y).take 24)
    have hload := LoadKeyFromFileArg_of_sealed c _ filename _ (E0.set k y) P dk2 hfile2 hdec
      (by rw [List.length_set, hE0len]) hdk2
    cases hopen : c.secretboxOpen ((E0.set k y).drop 24) ((E0.set k y).take 24) dk2 with
    | none =>
      rw [hopen] at hload
      rw [hload]
      exact ⟨rfl, Or.inr (Or.inr (Or.inl ⟨k, y, dk2, rfl, hdk2, hopen, rfl⟩)),
        fun _ => Or.inr ⟨_, rfl⟩⟩
    | some m =>
      rw [hopen] at hload
      rw [hload]
      by_cases hsame : E0.set k y = E0
      · have hm : S = m := by
          rw [hsame] at hopen hdk2
          have htake : E0.take 24 = w.entropy.take 24 := by
            rw [← hE0]; exact take_append_of_length _ _ _ hsalt
          have hdrop : E0.drop 24 = c.secretboxSeal S (w.entropy.take 24) dk := by
            rw [← hE0]; exact drop_append_of_length _ _ _ hsalt
          rw [htake] at hdk2 hopen
          rw [hkey] at hdk2
          injection hdk2 with hdk2
          subst hdk2
          rw [hdrop, hinv] at hopen
          injection hopen
        subst hm
        refine ⟨rfl, Or.inr (Or.inl ⟨by rw [hsame], by simp only [goCopy_zeros 96 _ hS]⟩),
          fun _ => Or.inl (by simp only [goCopy_zeros 96 _ hS])⟩
      · refine ⟨rfl, Or.inr (Or.inr (Or.inr ⟨k, y, dk2, m, rfl, hsame, hdk2, hopen, rfl⟩)), ?_⟩
        intro hrej
        rw [hrej k y dk2 hsame hdk2] at hopen
        cases hopen
  · -- the hex decoder rejects the flipped file
    have hload : LoadKeyFromFileArg c ((SaveKeyToFileArg c w filename S P).2.setFile filename
        (flipBit (sprintfHexLine E0) i)) filename P = ((some (zeros 96), some e),
        (SaveKeyToFileArg c w filename S P).2.setFile filename
          (flipBit (sprintfHexLine E0) i)) := by
      simp only [LoadKeyFromFileArg, ReadFile, hfile2, hdec]
    rw [hload]
    exact ⟨rfl, Or.inl ⟨e, rfl, rfl⟩, fun _ => Or.inr ⟨e, rfl⟩⟩

/-- The outcomes of flipping bit 1 of the sample key file. -/
theorem single_bit_flip_of_file_witness :
    ∃ E, hexDecodeString (TrimSpace demoFile) = (E, none) ∧ E.length = 136 ∧
      flipBit demoFile 1 ≠ demoFile ∧
      (LoadKeyFromFileArg demoCrypto (demoSavedWorld.setFile "key.hex" (flipBit demoFile 1))
        "key.hex" demoPass).2 = demoSavedWorld.setFile "key.hex" (flipBit demoFile 1) ∧
      ((∃ e, (hexDecodeString (TrimSpace (flipBit demoFile 1))).2 = some e ∧
          (LoadKeyFromFileArg demoCrypto
            (demoSavedWorld.setFile "key.hex" (flipBit demoFile 1)) "key.hex" demoPass).1
            = (some (List.replicate 96 0), some e)) ∨
        (hexDecodeString (TrimSpace (flipBit demoFile 1)) = (E, none) ∧
          (LoadKeyFromFileArg demoCrypto
            (demoSavedWorld.setFile "key.hex" (flipBit demoFile 1)) "key.hex" demoPass).1
            = (some demoSecret, none)) ∨
        (∃ k y dk2, hexDecodeString (TrimSpace (flipBit demoFile 1)) = (E.set k y, none) ∧
          demoCrypto.scryptKey demoPass ((E.set k y).take 24) 16384 8 1 32 = .ok dk2 ∧
          demoCrypto.secretboxOpen ((E.set k y).drop 24) ((E.set k y).take 24) dk2 = none ∧
          (LoadKeyFromFileArg demoCrypto
            (demoSavedWorld.setFile "key.hex" (flipBit demoFile 1)) "key.hex" demoPass).1
            = (some (List.replicate 96 0),
                some (.errorf ("Decryption failed for " ++ "key.hex" ++ " ")))) ∨
        (∃ k y dk2 m, hexDecodeString (TrimSpace (flipBit demoFile 1)) = (E.set k y, none) ∧
          E.set k y ≠ E ∧
          demoCrypto.scryptKey demoPass ((E.set k y).take 24) 16384 8 1 32 = .ok dk2 ∧
          demoCrypto.secretboxOpen ((E.set k y).drop 24) ((E.set k y).take 24) dk2 = some m ∧
          (LoadKeyFromFileArg demoCrypto
            (demoSavedWorld.setFile "key.hex" (flipBit demoFile 1)) "key.hex" demoPass).1
            = (some (goCopy (zeros 96) m), none))) ∧
      ((∀ k y dk2, E.set k y ≠ E →
          demoCrypto.scryptKey demoPass ((E.set k y).take 24) 16384 8 1 32 = .ok dk2 →
          demoCrypto.secretboxOpen ((E.set k y).drop 24) ((E.set k y).take 24) dk2 = none) →
        ((LoadKeyFromFileArg demoCrypto
            (demoSavedWorld.setFile "key.hex" (flipBit demoFile 1)) "key.hex" demoPass).1
            = (some demoSecret, none) ∨
          ∃ e, (LoadKeyFromFileArg demoCrypto
            (demoSavedWorld.setFile "key.hex" (flipBit demoFile 1)) "key.hex" demoPass).1
            = (some (List.replicate 96 0), some e))) :=
  single_bit_flip_of_file demoCrypto demoWorld "key.hex" demoSecret demoPass demoFile 1
    length_demoSecret demoPass_ne_nil demoOpen_demoSeal (fun _ => ⟨_, rfl⟩) (by decide)
    (by decide) (by decide)

/-- Claim C5, encrypted layout: the file a successful `SaveKeyToFileArg`
writes for a 96-byte secret and a non-empty passphrase is 272 lowercase hex
digits and one newline; it decodes to 136 bytes, the first 24 being the salt
drawn from the random source and the other 112 being `secretbox.Seal` of the
secret under that salt as nonce and the scrypt key of passphrase and salt
(N = 16384, r = 8, p = 1, 32 bytes). -/
theorem save_encrypted_layout (c : Crypto) (w : World) (filename : String) (S P : List Byte)
    (hS : S.length = 96) (hP : P ≠ [])
    (hsave : (SaveKeyToFileArg c w filename S P).1 = none) :
    ∃ salt dk digits E,
      salt = w.entropy.take 24 ∧ salt.length = 24 ∧
      c.scryptKey P salt 16384 8 1 32 = .ok dk ∧ dk.length = 32 ∧
      (SaveKeyToFileArg c w filename S P).2.fs filename = .file (digits ++ [10]) ∧
      digits.length = 272 ∧ (∀ ch ∈ digits, isLowerHex ch = true) ∧
      hexDecodeString (TrimSpace (digits ++ [10])) = (E, none) ∧
      E.length = 136 ∧ E.take 24 = salt ∧ E.drop 24 = c.secretboxSeal S salt dk ∧
      (c.secretboxSeal S salt dk).length = 112 := by
  obtain ⟨dk, hent, hkey, hfile⟩ := SaveKeyToFileArg_sealed_ok c w filename S P hP hsave
  have hsalt : (w.entropy.take 24).length = 24 := by simp [hent]
  have hseal : (c.secretboxSeal S (w.entropy.take 24) dk).length = 112 := by
    rw [c.secretboxSeal_length, hS]
  refine ⟨w.entropy.take 24, dk, hexEncode (w.entropy.take 24 ++
    c.secretboxSeal S (w.entropy.take 24) dk), _, rfl, hsalt, hkey,
    c.scryptKey_length _ _ _ _ _ _ _ hkey, hfile, ?_, isLowerHex_of_mem_hexEncode _,
    hexDecodeString_TrimSpace_sprintfHexLine _, ?_, ?_, ?_, hseal⟩
  · rw [length_hexEncode, List.length_append, hsalt, hseal]
  · rw [List.length_append, hsalt, hseal]
  · exact take_append_of_length _ _ _ hsalt
  · exact drop_append_of_length _ _ _ hsalt

/-- The layout of the sample encrypted key file. -/
theorem save_encrypted_layout_witness :
    ∃ salt dk digits E,
      salt = demoWorld.entropy.take 24 ∧ salt.length = 24 ∧
      demoCrypto.scryptKey demoPass salt 16384 8 1 32 = .ok dk ∧ dk.length = 32 ∧
      demoSavedWorld.fs "key.hex" = .file (digits ++ [10]) ∧
      digits.length = 272 ∧ (∀ ch ∈ digits, isLowerHex ch = true) ∧
      hexDecodeString (TrimSpace (digits ++ [10])) = (E, none) ∧
      E.length = 136 ∧ E.take 24 = salt ∧ E.drop 24 = demoCrypto.secretboxSeal demoSecret salt dk ∧
      (demoCrypto.secretboxSeal demoSecret salt dk).length = 112 :=
  save_encrypted_layout demoCrypto demoWorld "key.hex" demoSecret demoPass length_demoSecret
    demoPass_ne_nil (by decide)

/-- Claim C6, an unencrypted file ignores the passphrase: a file whose trimmed
contents hex-decode to 96 bytes makes `LoadKeyFromFileArg` return exactly those
bytes and no error, for every passphrase. -/
theorem load_plain_ignores_pass (c : Crypto) (w : World) (filename : String)
    (data B pass : List Byte) (hfile : w.fs filename = .file data)
    (hdec : hexDecodeString (TrimSpace data) = (B, none)) (hlen : B.length = 96) :
    (LoadKeyFromFileArg c w filename pass).1 = (some B, none) := by
  rw [LoadKeyFromFileArg_of_plain c w filename data B pass hfile hdec hlen]

/-- The sample plaintext key file loads under a passphrase it does not need. -/
theorem load_plain_ignores_pass_witness :
    (LoadKeyFromFileArg demoCrypto demoPlainWorld "key.hex" demoPass).1
      = (some demoSecret, none) :=
  load_plain_ignores_pass demoCrypto demoPlainWorld "key.hex" (sprintfHexLine demoSecret)
    demoSecret demoPass (by decide) (hexDecodeString_TrimSpace_sprintfHexLine _)
    length_demoSecret

/-- Claim C7, bootstrap: at a path with no file, when the random source yields
the 96 bytes `K` (and a salt, if a passphrase is given), the terminal answers
`P` every time, the write succeeds, scrypt succeeds and `secretbox.Open` undoes
`secretbox.Seal`, then `ReadKeyFile` returns `K` with no error, the file exists
afterwards, and a further `LoadKeyFromFileArg` with `P` returns `K` as well. -/
theorem bootstrap (c : Crypto) (w : World) (filename : String) (K P : List Byte) (fuel : Nat)
    (habs : w.fs filename = .absent) (hfuel : 0 < fuel)
    (hent : 96 ≤ w.entropy.length) (hK : K = w.entropy.take 96)
    (hent2 : P ≠ [] → 120 ≤ w.entropy.length)
    (htty : ∀ i, w.tty i = .ok P)
    (hw : w.writeErr filename = none)
    (hscrypt : ∀ salt, ∃ dk, c.scryptKey P salt 16384 8 1 32 = .ok dk)
    (hinv : ∀ m n k, c.secretboxOpen (c.secretboxSeal m n k) n k = some m) :
    ∃ w1 data, ReadKeyFile c fuel w filename = some ((some K, none), w1) ∧
      w1.fs filename = .file data ∧
      (LoadKeyFromFileArg c w1 filename P).1 = (some K, none) := by
  obtain ⟨n, rfl⟩ : ∃ n, fuel = n + 1 := ⟨fuel - 1, by omega⟩
  have hKlen : K.length = 96 := by rw [hK]; simp [hent]
  have hnot : ¬ w.entropy.length < 96 := by omega
  simp only [ReadKeyFile, Stat, habs, IsNotExist, if_true, randRead, Printf, if_neg hnot, ← hK]
  rw [SaveKeyToFileInteractive_of_match c n _ filename K P (by exact htty _) (by exact htty _)]
  by_cases hP : P = []
  · subst hP
    rw [SaveKeyToFileArg_plain_eq c _ filename K (by exact hw)]
    simp only []
    have hdec := hexDecodeString_TrimSpace_sprintfHexLine K
    have hlen : 193 ≤ (sprintfHexLine K).length := by
      simp [sprintfHexLine, length_hexEncode, hKlen]
    rw [LoadKeyFromFileInteractive_of_prompt c _ filename (sprintfHexLine K) []
      (by simp [Printf, World.setFile]) hlen (by exact htty _)]
    rw [LoadKeyFromFileArg_of_plain c _ filename (sprintfHexLine K) K []
      (by simp [Printf, World.setFile]) hdec hKlen]
    refine ⟨_, sprintfHexLine K, rfl, by simp [Printf, World.setFile], ?_⟩
    rw [LoadKeyFromFileArg_of_plain c _ filename (sprintfHexLine K) K []
      (by simp [Printf, World.setFile]) hdec hKlen]
  · have h120 := hent2 hP
    obtain ⟨dk, hdk⟩ := hscrypt ((w.entropy.drop 96).take 24)
    have hsalt : ((w.entropy.drop 96).take 24).length = 24 := by
      simp only [List.length_take, List.length_drop]; omega
    rw [SaveKeyToFileArg_sealed_eq c _ filename K P dk hP
      (by simp only [List.length_drop]; omega) (by exact hdk) (by exact hw)]
    simp only []
    have hlen : 193 ≤ (sprintfHexLine ((w.entropy.drop 96).take 24 ++
        c.secretboxSeal K ((w.entropy.drop 96).take 24) dk)).length := by
      simp only [sprintfHexLine, length_hexEncode, List.length_append,
        c.secretboxSeal_length, hsalt, hKlen, List.length_singleton]
      omega
    rw [LoadKeyFromFileInteractive_of_prompt c _ filename (sprintfHexLine
      ((w.entropy.drop 96).take 24 ++ c.secretboxSeal K ((w.entropy.drop 96).take 24) dk)) P
      (by simp [Printf, World.setFile]) hlen (by exact htty _)]
    rw [LoadKeyFromFileArg_of_envelope c _ filename K P _ dk hKlen hsalt
      (by simp [Printf, World.setFile]) (by exact hdk) (hinv _ _ _)]
    refine ⟨_, sprintfHexLine ((w.entropy.drop 96).take 24 ++
      c.secretboxSeal K ((w.entropy.drop 96).take 24) dk), rfl,
      by simp [Printf, World.setFile], ?_⟩
    rw [LoadKeyFromFileArg_of_envelope c _ filename K P _ dk hKlen hsalt
      (by simp [Printf, World.setFile]) (by exact hdk) (hinv _ _ _)]

/-- The bootstrap on the sample world, with one turn of the passphrase loop. -/
theorem bootstrap_witness :
    ∃ w1 data, ReadKeyFile demoCrypto 1 demoWorld "key.hex"
        = some ((some (demoWorld.entropy.take 96), none), w1) ∧
      w1.fs "key.hex" = .file data ∧
      (LoadKeyFromFileArg demoCrypto w1 "key.hex" demoPass).1
        = (some (demoWorld.entropy.take 96), none) :=
  bootstrap demoCrypto demoWorld "key.hex" (demoWorld.entropy.take 96) demoPass 1 (by decide)
    (by decide) (by decide) rfl (fun _ => by decide) (fun _ => rfl) (by decide)
    (fun _ => ⟨_, rfl⟩) demoOpen_demoSeal

/-- Claim C8, a failed authentication leaks nothing: for a file that decodes to
136 bytes `E` and a passphrase whose derived key makes `secretbox.Open` reject
the box `E[24:]` under the nonce `E[:24]`, `LoadKeyFromFileArg` returns the
all-zero 96-byte key with the error `Decryption failed for <filename> `, which
depends on the file name only. -/
theorem load_auth_failure (c : Crypto) (w : World) (filename : String)
    (data E pass dk : List Byte) (hfile : w.fs filename = .file data)
    (hdec : hexDecodeString (TrimSpace data) = (E, none)) (hlen : E.length = 136)
    (hkey : c.scryptKey pass (E.take 24) 16384 8 1 32 = .ok dk)
    (hopen : c.secretboxOpen (E.drop 24) (E.take 24) dk = none) :
    LoadKeyFromFileArg c w filename pass =
      ((some (List.replicate 96 0),
        some (.errorf ("Decryption failed for " ++ filename ++ " "))), w) := by
  rw [LoadKeyFromFileArg_of_sealed c w filename data E pass dk hfile hdec hlen hkey, hopen]
  rfl

/-- The sample encrypted key file under the wrong passphrase `[1]`. -/
theorem load_auth_failure_witness :
    LoadKeyFromFileArg demoCrypto demoSavedWorld "key.hex" [1] =
      ((some (List.replicate 96 0), some (.errorf "Decryption failed for key.hex ")),
        demoSavedWorld) :=
  load_auth_failure demoCrypto demoSavedWorld "key.hex" demoFile demoEnvelope [1] demoKeyWrong
    (by decide) (by decide) (by decide) (by rfl) (by decide)

/-- Claim C9, at the failing input: the key file that `SaveKeyToFileArg`
writes without a passphrase has 193 bytes, fewer than 272, and yet
`LoadKeyFromFileInteractive` asks for a passphrase: with a closed terminal it
returns the terminal's error, where `LoadKeyFromFileArg` with a nil passphrase
returns the key. So `ReadKeyFile` on a fresh path, answered with the empty
passphrase twice and then a closed terminal, writes the file and fails after a
third prompt. -/
theorem load_interactive_prompts_below_272 :
    ∃ data, demoPlainWorld.fs "key.hex" = .file data ∧ data.length = 193 ∧
      data.length < 272 ∧
      (LoadKeyFromFileInteractive demoCrypto demoPlainWorld "key.hex").2.ttyPos
        = demoPlainWorld.ttyPos + 1 ∧
      (LoadKeyFromFileInteractive demoCrypto demoPlainWorld "key.hex").1
        = (none, some (.sys "EOF")) ∧
      (LoadKeyFromFileArg demoCrypto demoPlainWorld "key.hex" []).1
        = (some demoSecret, none) ∧
      (ReadKeyFile demoCrypto 1 demoBootWorld "key.hex").map (fun r => (r.1, r.2.ttyPos))
        = some ((none, some (.sys "EOF")), 3) := by
  refine ⟨sprintfHexLine demoSecret, rfl, by decide, by decide, by decide, by decide,
    by decide, by decide⟩

/-- Claim C10, the threshold of the prompt is safe: a file of fewer than 193
bytes never hex-decodes to 136 bytes, and `LoadKeyFromFileArg` returns the same
key, the same error and the same world for any two passphrases. -/
theorem load_short_file_pass_irrelevant (c : Crypto) (w : World) (filename : String)
    (data p1 p2 : List Byte) (hfile : w.fs filename = .file data)
    (hlen : data.length < 193) :
    (hexDecodeString (TrimSpace data)).1.length ≠ 136 ∧
      LoadKeyFromFileArg c w filename p1 = LoadKeyFromFileArg c w filename p2 := by
  have h1 := length_hexDecodeString_le (TrimSpace data)
  have h2 := length_TrimSpace_le data
  have h3 : (hexDecodeString (TrimSpace data)).1.length ≠ 136 := by omega
  refine ⟨h3, ?_⟩
  simp only [LoadKeyFromFileArg, ReadFile, hfile]
  rcases hd : hexDecodeString (TrimSpace data) with ⟨E, _ | err⟩
  · rw [hd] at h3
    simp only [ne_eq, h3, not_false_eq_true, if_true]
  · rfl

/-- The sample file of 101 bytes loads alike with and without passphrase. -/
theorem load_short_file_pass_irrelevant_witness :
    (hexDecodeString (TrimSpace (sprintfHexLine (zeros 50)))).1.length ≠ 136 ∧
      LoadKeyFromFileArg demoCrypto demoShortWorld "key.hex" demoPass =
        LoadKeyFromFileArg demoCrypto demoShortWorld "key.hex" [] :=
  load_short_file_pass_irrelevant demoCrypto demoShortWorld "key.hex"
    (sprintfHexLine (zeros 50)) demoPass [] (by decide) (by decide)

end Keyfile
